import Mathlib

/-!
Verification of the core of the `allprompt` repository: the output
formatter (`src/core/output_formatter.py`), the directory scanner
(`src/core/file_scanner.py`), the gitignore filter (`src/core/filter.py`)
and the tokenizer (`src/core/tokenizer.py`).

Conventions of the shallow embedding:
- a `pathlib.Path` is modelled by the list of its components
  (`Path.parts`); for a relative path, the empty list is `Path(".")`;
  for an absolute path the leading "/" anchor is implicit.
- Python strings are Lean strings; Python string comparison is
  code-point lexicographic comparison, modelled by `lexLe` over the
  character lists.
- `sorted` in Python is a stable sort by key; it is modelled by the
  stable `List.insertionSort` (a stable sort is uniquely determined by
  the key relation, so any stable sort is a faithful model).
- External library calls (codec decoding, tiktoken encoding, pathspec
  pattern matching) are oracle parameters of the embedding.
- The operating system is modelled as POSIX (os.sep is "/", os.name is
  not "nt"), and OS failures (permission errors) are not injected.
-/

deriving instance DecidableEq for Except

namespace Allprompt

/-- Python code-point lexicographic string order, on character lists:
`lexLe a b` is true iff the Python expression `a <= b` on the
corresponding strings is `True`. -/
def lexLe : List Char → List Char → Bool
  | [], _ => true
  | _ :: _, [] => false
  | a :: as, b :: bs =>
    if a.toNat < b.toNat then true
    else if b.toNat < a.toNat then false
    else lexLe as bs

/-- Python string comparison `a <= b`. -/
def strLe (a b : String) : Bool := lexLe a.data b.data

/-- The `str()` of a relative `pathlib.Path` given by its parts:
components joined by "/", and "." for the empty path. -/
def pyStr : List String → String
  | [] => "."
  | [p] => p
  | p :: q :: rest => p ++ "/" ++ pyStr (q :: rest)

/-- Components joined by "/" with no special empty case (used for the
textual form of absolute paths). -/
def joinSlash : List String → String
  | [] => ""
  | [p] => p
  | p :: q :: rest => p ++ "/" ++ joinSlash (q :: rest)

/-- The `str()` of an absolute `pathlib.Path` given by its parts after
the "/" anchor. -/
def strOfAbs (p : List String) : String := "/" ++ joinSlash p

/-- Python `"\n".join(lines)`. -/
def joinNL : List String → String
  | [] => ""
  | [l] => l
  | l :: m :: rest => l ++ "\n" ++ joinNL (m :: rest)

/-- The `name` of a path given by its parts: the last component, or ""
when there is none. -/
def pyName (p : List String) : String := (p.getLast?).getD ""

/-- Python `name.startswith(".")`, the POSIX arm of `is_hidden` in
`file_scanner.py` (the `os.name == "nt"` arm is outside the POSIX
model). -/
def is_hidden (name : String) : Bool := name.data.head? == some '.'

/-- Python `str.lower()` restricted to the ASCII range, character by
character (extensions looked up in the tables are ASCII). -/
def pyLower (s : String) : String := ⟨s.data.map Char.toLower⟩

/-- The `suffix` property of a `pathlib.Path` name: the last
`.`-extension of the final component, empty when the final component
has no dot, starts with its only dot, or ends with its last dot. -/
def pySuffix (name : String) : String :=
  let cs := name.data
  let n := cs.length
  let tailNoDot := cs.reverse.takeWhile (fun c => c ≠ '.')
  if tailNoDot.length = n then ""
  else
    let i := n - 1 - tailNoDot.length
    if 0 < i ∧ i < n - 1 then ⟨cs.drop i⟩ else ""

theorem lexLe_trans : ∀ a b c, lexLe a b = true → lexLe b c = true → lexLe a c = true := by
  intro a
  induction a with
  | nil => intro b c _ _; rfl
  | cons x xs ih =>
    intro b c hab hbc
    cases b with
    | nil => simp [lexLe] at hab
    | cons y ys =>
      cases c with
      | nil => simp [lexLe] at hbc
      | cons z zs =>
        simp only [lexLe] at hab hbc ⊢
        split_ifs at hab hbc ⊢ <;> try (first | rfl | omega | (exact hab) | (exact hbc))
        · exact ih ys zs hab hbc

theorem lexLe_total : ∀ a b, lexLe a b = true ∨ lexLe b a = true := by
  intro a
  induction a with
  | nil => intro b; left; rfl
  | cons x xs ih =>
    intro b
    cases b with
    | nil => right; rfl
    | cons y ys =>
      simp only [lexLe]
      split_ifs <;> try (first | left; rfl | right; rfl | omega)
      exact ih ys

theorem lexLe_refl : ∀ l, lexLe l l = true := by
  intro l
  induction l with
  | nil => rfl
  | cons a as ih =>
    simp only [lexLe]
    split_ifs <;> first | omega | exact ih

/-- A string is less than or equal to any extension of itself. -/
theorem lexLe_append : ∀ (l t : List Char), lexLe l (l ++ t) = true := by
  intro l t
  induction l with
  | nil => rfl
  | cons a as ih =>
    simp only [List.cons_append, lexLe]
    split_ifs <;> first | omega | exact ih

/-- A proper extension of a string is strictly greater. -/
theorem lexLe_append_false : ∀ (l : List Char) (c : Char) (t : List Char),
    lexLe (l ++ c :: t) l = false := by
  intro l
  induction l with
  | nil => intro c t; rfl
  | cons a as ih =>
    intro c t
    simp only [List.cons_append, lexLe]
    split_ifs <;> first | omega | exact ih c t

theorem strLe_trans : ∀ a b c, strLe a b = true → strLe b c = true → strLe a c = true :=
  fun a b c hab hbc => lexLe_trans a.data b.data c.data hab hbc

theorem strLe_total : ∀ a b, strLe a b = true ∨ strLe b a = true :=
  fun a b => lexLe_total a.data b.data

/-- Splitting `pyStr` over a concatenation of two nonempty part lists. -/
theorem pyStr_append : ∀ (a : List String) (b : List String), a ≠ [] → b ≠ [] →
    pyStr (a ++ b) = pyStr a ++ "/" ++ pyStr b := by
  intro a
  induction a with
  | nil => intro b ha _; exact absurd rfl ha
  | cons p ps ih =>
    intro b _ hb
    cases ps with
    | nil =>
      cases b with
      | nil => exact absurd rfl hb
      | cons q qs => simp [pyStr]
    | cons p2 ps2 =>
      have hih : pyStr ((p2 :: ps2) ++ b) = pyStr (p2 :: ps2) ++ "/" ++ pyStr b :=
        ih b (by simp) hb
      simp only [List.cons_append] at hih ⊢
      simp only [pyStr]
      rw [hih]
      simp [String.append_assoc]

/-- For a proper part-list extension, the `pyStr` key of the longer
path is strictly greater (when the shorter path is nonempty). -/
theorem strLe_pyStr_proper_prefix : ∀ (a b : List String), a ≠ [] → b ≠ [] →
    strLe (pyStr (a ++ b)) (pyStr a) = false := by
  intro a b ha hb
  rw [pyStr_append a b ha hb]
  show lexLe ((pyStr a ++ "/" ++ pyStr b)).data (pyStr a).data = false
  have h1 : (pyStr a ++ "/" ++ pyStr b).data
      = (pyStr a).data ++ '/' :: (pyStr b).data := by
    simp [String.data_append]
  rw [h1]
  exact lexLe_append_false (pyStr a).data '/' (pyStr b).data

/-- A part-list prefix gives a `pyStr` key that is less than or equal. -/
theorem strLe_pyStr_prefix : ∀ (a b : List String), a ≠ [] →
    strLe (pyStr a) (pyStr (a ++ b)) = true := by
  intro a b ha
  cases b with
  | nil => simpa using lexLe_refl (pyStr a).data
  | cons q qs =>
    rw [pyStr_append a (q :: qs) ha (by simp)]
    show lexLe (pyStr a).data ((pyStr a ++ "/" ++ pyStr (q :: qs))).data = true
    have h1 : (pyStr a ++ "/" ++ pyStr (q :: qs)).data
        = (pyStr a).data ++ '/' :: (pyStr (q :: qs)).data := by
      simp [String.data_append]
    rw [h1]
    exact lexLe_append (pyStr a).data _

/-! ## output_formatter.py: data model and `generate_file_map` -/

/-- One selected file or folder as consumed by the output formatter:
a dictionary with keys `path` (absolute), `rel_path` (relative to the
root) and `is_dir`; both paths are given by their `Path.parts`. -/
structure Item where
  path : List String
  rel_path : List String
  is_dir : Bool
deriving Repr, DecidableEq

/-- A value of the ephemeral tree dictionary built by
`generate_file_map`: Python `True` (file leaf), Python `None`
(directory leaf), or a nested dict given as an insertion-ordered
association list. -/
inductive PyNode where
  | fileLeaf
  | dirLeaf
  | dict (entries : List (String × PyNode))

/-- Python dict lookup `d[k]` (as an Option), on the insertion-ordered
association list. -/
def dictGet : List (String × PyNode) → String → Option PyNode
  | [], _ => none
  | (k', v') :: rest, k => if k' = k then some v' else dictGet rest k

/-- Python dict assignment `d[k] = v`: updates the value in place when
the key exists, otherwise appends the key at the end. -/
def dictSet : List (String × PyNode) → String → PyNode → List (String × PyNode)
  | [], k, v => [(k, v)]
  | (k', v') :: rest, k, v =>
    if k' = k then (k, v) :: rest else (k', v') :: dictSet rest k v

/-- The inner loop of `generate_file_map` (lines 126 to 148 of
`output_formatter.py`) adding one already-filtered part list to the
tree: every component but the last becomes a nested dict (a previous
leaf marker of either kind is silently replaced by an empty dict), and
the last component is set unconditionally to `None` for a directory or
`True` for a file. -/
def insertParts (tree : List (String × PyNode)) : List String → Bool → List (String × PyNode)
  | [], _ => tree
  | [p], is_dir => dictSet tree p (if is_dir then .dirLeaf else .fileLeaf)
  | p :: q :: rest, is_dir =>
    let child := match dictGet tree p with
      | some (.dict es) => es
      | _ => []
    dictSet tree p (.dict (insertParts child (q :: rest) is_dir))

/-- One iteration of the item loop of `generate_file_map`: skip the
root item (`rel_path == Path(".")`, the empty part list), filter the
parts (Python `if p and p != "."`), skip items with no valid part, and
insert the rest. -/
def buildStep (tree : List (String × PyNode)) (item : Item) : List (String × PyNode) :=
  if item.rel_path = [] then tree
  else
    let parts := item.rel_path.filter (fun p => !(p = "" || p = "."))
    if parts = [] then tree
    else insertParts tree parts item.is_dir

/-- The item loop of `generate_file_map` over the (already sorted)
item list, starting from the empty tree dict. -/
def buildTree : List Item → List (String × PyNode) → List (String × PyNode)
  | [], tree => tree
  | item :: rest, tree => buildTree rest (buildStep tree item)

/-- The sort key relation of `sorted(items, key=lambda x: str(x.get("rel_path", "")))`. -/
def itemLe (x y : Item) : Prop := strLe (pyStr x.rel_path) (pyStr y.rel_path) = true

instance : DecidableRel itemLe := fun _ _ => instDecidableEqBool _ _

instance : IsTrans Item itemLe :=
  ⟨fun a b c hab hbc =>
    strLe_trans (pyStr a.rel_path) (pyStr b.rel_path) (pyStr c.rel_path) hab hbc⟩

instance : IsTotal Item itemLe :=
  ⟨fun a b => strLe_total (pyStr a.rel_path) (pyStr b.rel_path)⟩

/-- Python `sorted` by the `rel_path` string key (a stable sort). -/
def sortedItems (items : List Item) : List Item := List.insertionSort itemLe items

/-- The sort key relation of `sorted(node.items())` inside
`_traverse_tree`: tuples are ordered by their first component, the
name (names are unique in the built tree, so the second tuple
component never takes part in the comparison). -/
def entryLe (a b : String × PyNode) : Prop := strLe a.1 b.1 = true

instance : DecidableRel entryLe := fun _ _ => instDecidableEqBool _ _

mutual
/-- Recursively replace every dict of the tree by its sorted version,
so that the renderer can consume each level in the order produced by
`sorted(node.items())`. -/
def sortEntries : List (String × PyNode) → List (String × PyNode)
  | [] => []
  | (n, v) :: rest => (n, sortNode v) :: sortEntries rest

def sortNode : PyNode → PyNode
  | .dict es => .dict (List.insertionSort entryLe (sortEntries es))
  | v => v
end

/-- Sorted form of a whole tree dict (the top-level node of
`_traverse_tree`). -/
def sortTreeTop (es : List (String × PyNode)) : List (String × PyNode) :=
  List.insertionSort entryLe (sortEntries es)

/-- The directory test of the renderer:
`value is None or isinstance(value, dict)`. -/
def isDirNode : PyNode → Bool
  | .fileLeaf => false
  | _ => true

mutual
/-- The loop body of `_traverse_tree` over one (sorted) dict level:
connector and child indentation depend on whether the entry is the
last of its level; directories get a trailing "/"; recursion descends
only into dict values. Each level of the input is already sorted (see
`sortNode`), which models the `sorted(node.items())` call performed at
each level by the source. -/
def renderEntries (parentPfx : String) : List (String × PyNode) → List String
  | [] => []
  | (name, v) :: rest =>
    let isLast := rest.isEmpty
    let connector := if isLast then "└── " else "├── "
    let nextPfx := parentPfx ++ (if isLast then "    " else "│   ")
    let line := parentPfx ++ connector ++ name ++ (if isDirNode v then "/" else "")
    line :: (renderChild nextPfx v ++ renderEntries parentPfx rest)

def renderChild (pfx : String) : PyNode → List String
  | .dict es => renderEntries pfx es
  | _ => []
end

/-- The line list of `generate_file_map` before the final
`"\n".join`: the `<file_map>` marker, the root name line (falling back
to "project" when the root path has no usable name), the rendered tree
(or the placeholder comment when the tree is empty), and the closing
marker. The unused `indent_size` parameter of the source is omitted. -/
def generateFileMapLines (items : List Item) (root_path : List String) : List String :=
  let root_name0 := pyName root_path
  let root_name := if root_name0 = "" then "project" else root_name0
  let tree := buildTree (sortedItems items) []
  let body :=
    if tree.isEmpty then ["// 선택된 항목이 없거나 처리할 수 없습니다."]
    else renderEntries "" (sortTreeTop tree)
  "<file_map>" :: (root_name ++ "/") :: (body ++ ["</file_map>"])

/-- `generate_file_map(items, root_path)` of `output_formatter.py`. -/
def generate_file_map (items : List Item) (root_path : List String) : String :=
  joinNL (generateFileMapLines items root_path)

/-! ## file_scanner.py: `is_binary_file` and `read_text_file` -/

/-- What the filesystem holds at one path, as far as the reading
functions observe it: nothing, a directory, or a regular file with its
byte content. -/
inductive FileState where
  | absent
  | directory
  | present (bytes : List Nat)
deriving Repr, DecidableEq

/-- Python `path.exists()` on a `FileState`. -/
def fsExists : FileState → Bool
  | .absent => false
  | _ => true

/-- The binary extension table of `is_binary_file`. -/
def binary_extensions : List String :=
  [".exe", ".dll", ".so", ".dylib", ".bin", ".o", ".obj",
   ".zip", ".gz", ".tar", ".rar", ".7z", ".xz", ".bz2",
   ".jpg", ".jpeg", ".png", ".gif", ".bmp", ".tiff", ".ico", ".webp",
   ".mp3", ".wav", ".ogg", ".flac", ".aac", ".wma",
   ".mp4", ".avi", ".mkv", ".mov", ".wmv", ".flv", ".webm",
   ".pdf", ".doc", ".docx", ".xls", ".xlsx", ".ppt", ".pptx",
   ".class", ".pyc", ".pyd", ".pyo", ".db", ".sqlite", ".mdb",
   ".ttf", ".woff", ".woff2", ".eot", ".otf"]

/-- `is_binary_file(file_path)` against a filesystem oracle `fs`:
false for anything that is not a regular file and for empty files;
true for a known binary extension; otherwise true iff a NUL byte
appears among the first 1024 bytes. An I/O error would also yield
false, but OS failures are not injected in this model. -/
def is_binary_file (fs : List String → FileState) (file_path : List String) : Bool :=
  match fs file_path with
  | .present bytes =>
    if bytes.length = 0 then false
    else if binary_extensions.contains (pyLower (pySuffix (pyName file_path))) then true
    else (bytes.take (min 1024 bytes.length)).contains 0
  | _ => false

/-- The error dictionary returned by `read_text_file` on failure:
keys `error`, `error_type`, `details`, and (only for the
encoding-detection failure) `attempted_encodings` and `decode_errors`. -/
structure ErrRec where
  error : String
  error_type : String
  details : String
  attempted_encodings : List String
  decode_errors : List String
deriving Repr, DecidableEq

/-- The ordered encoding list of `read_text_file`. -/
def encodings : List String :=
  ["utf-8", "utf-8-sig",
   "utf-16", "utf-16-le", "utf-16-be",
   "latin-1", "iso-8859-1",
   "cp1252",
   "euc-kr", "cp949",
   "shift-jis", "cp932",
   "gb2312", "gbk", "gb18030",
   "cp1251",
   "ascii"]

/-- A decoding oracle standing for the Python codec machinery:
`dec enc bytes` is the decoded text, or the message of the raised
`UnicodeDecodeError`. -/
def DecOracle := String → List Nat → Except String String

/-- The fallback loop of `read_text_file` over the remaining encodings
(after the initial plain utf-8 attempt), accumulating one
`"enc: message"` string per failed attempt; when every encoding fails
it returns the `encoding_detection_failed` record carrying the whole
attempted list and the first three failure messages. -/
def tryEncodings (dec : DecOracle) (bytes : List Nat) (pstr : String) :
    List String → List String → Except ErrRec String
  | [], errs =>
    .error ⟨"encoding_detection_failed", "UnicodeDecodeError",
      "지원하는 모든 인코딩으로 파일을 읽을 수 없음: " ++ pstr,
      encodings, errs.take 3⟩
  | enc :: rest, errs =>
    match dec enc bytes with
    | .ok content => .ok content
    | .error msg => tryEncodings dec bytes pstr rest (errs ++ [enc ++ ": " ++ msg])

/-- `read_text_file(file_path)` of `file_scanner.py` against a
filesystem oracle and a decoding oracle: an error record for a missing
path or a binary file; otherwise a plain utf-8 attempt followed by the
fallback loop. Reading a directory raises `IsADirectoryError`, caught
by the generic handler as a `read_error` record. The source can also
return `None` on no code path, and the permission branch needs an OS
failure, so neither appears in the model. -/
def read_text_file (dec : DecOracle) (fs : List String → FileState)
    (file_path : List String) : Except ErrRec String :=
  let pstr := strOfAbs file_path
  if fsExists (fs file_path) = false then
    .error ⟨"file_not_found", "FileNotFoundError", "파일이 존재하지 않음: " ++ pstr, [], []⟩
  else if is_binary_file fs file_path then
    .error ⟨"binary_file", "TypeError", "바이너리 파일은 텍스트로 읽을 수 없음: " ++ pstr, [], []⟩
  else
    match fs file_path with
    | .present bytes =>
      (match dec "utf-8" bytes with
       | .ok content => .ok content
       | .error _ => tryEncodings dec bytes pstr (encodings.drop 1) [])
    | _ =>
      .error ⟨"read_error", "IsADirectoryError", "파일 읽기 중 오류 발생: " ++ pstr, [], []⟩

/-! ## output_formatter.py: contents sections and `generate_full_output` -/

/-- The `EXTENSION_TO_LANGUAGE` table of `output_formatter.py`. -/
def EXTENSION_TO_LANGUAGE : List (String × String) :=
  [(".py", "python"), (".js", "javascript"), (".jsx", "jsx"),
   (".ts", "typescript"), (".tsx", "tsx"), (".html", "html"),
   (".css", "css"), (".scss", "scss"), (".sass", "sass"),
   (".json", "json"), (".md", "markdown"), (".txt", "text"),
   (".sh", "bash"), (".bash", "bash"), (".zsh", "bash"),
   (".c", "c"), (".cpp", "cpp"), (".cs", "csharp"), (".java", "java"),
   (".rb", "ruby"), (".go", "go"), (".rs", "rust"), (".php", "php"),
   (".swift", "swift"), (".kt", "kotlin"), (".kts", "kotlin"),
   (".xml", "xml"), (".yaml", "yaml"), (".yml", "yaml"),
   (".toml", "toml"), (".ini", "ini"), (".cfg", "ini"), (".conf", "ini"),
   (".sql", "sql"), (".r", "r"), (".dart", "dart"), (".lua", "lua"),
   (".pl", "perl"), (".pm", "perl"), (".hs", "haskell")]

/-- `EXTENSION_TO_LANGUAGE.get(file_ext, "text")` for the lowercased
suffix of a path. -/
def languageFor (file_path : List String) : String :=
  ((EXTENSION_TO_LANGUAGE.lookup (pyLower (pySuffix (pyName file_path)))).getD "text")

/-- The per-file loop of `generate_file_contents` over the sorted file
list: four lines per file (path header, opening fence with language
tag, content or Korean error comment, closing fence) plus a blank
separator. The guard reproduces the in-loop
`if "path" not in item or item.get("is_dir", True): continue` check
(the `path` key is always present on an `Item`). The dead
`result is None` compatibility branch of the source is unreachable
because `read_text_file` never returns `None`. -/
def contentsLoopKo (dec : DecOracle) (fs : List String → FileState) :
    List Item → List String
  | [] => []
  | item :: rest =>
    if item.is_dir then contentsLoopKo dec fs rest
    else
      let file_path := item.path
      let rel_path_str := pyStr item.rel_path
      let language := languageFor file_path
      let content := match read_text_file dec fs file_path with
        | .error r => "// 오류: " ++ r.error_type ++ " - " ++ r.details
        | .ok s => s
      ("File: " ++ rel_path_str) :: ("```" ++ language) :: content :: "```" :: "" ::
        contentsLoopKo dec fs rest

/-- A Python exception escaping a modelled function. -/
inductive PyErr where
  | nameError (name : String)
deriving Repr, DecidableEq

/-- The `contents` list built by `generate_file_contents`: the
`<file_contents>` marker, the per-file blocks over the sorted
non-directory items, and the closing marker. -/
def fileContentsList (dec : DecOracle) (fs : List String → FileState)
    (items : List Item) : List String :=
  let sorted_items := List.insertionSort itemLe (items.filter (fun i => !i.is_dir))
  "<file_contents>" :: (contentsLoopKo dec fs sorted_items ++ ["</file_contents>"])

/-- `generate_file_contents(items, root_path)` of `output_formatter.py`.
After building the `contents` list, the source returns the f-string
interpolating the name `file_map`, which is bound neither in the
function nor at module scope, so the return statement raises
`NameError` on every call (on Python before 3.12 the same line is
already a syntax error). -/
def generate_file_contents (dec : DecOracle) (fs : List String → FileState)
    (items : List Item) (root_path : List String) : Except PyErr String :=
  let _contents := fileContentsList dec fs items
  Except.error (PyErr.nameError "file_map")

/-- The item list built by `generate_full_output` from its `file_paths`
argument: the relative path comes from `path.relative_to(root_path)`,
falling back to `Path(path.name)` when the path is not under the root,
and `is_dir` comes from `path.is_dir()` on the filesystem. -/
def fullOutputItems (fs : List String → FileState) (root_path : List String)
    (file_paths : List (List String)) : List Item :=
  file_paths.map (fun path =>
    let rel_path :=
      if root_path.isPrefixOf path then path.drop root_path.length
      else
        let n := pyName path
        if n = "" then [] else [n]
    { path := path, rel_path := rel_path,
      is_dir := (fs path = FileState.directory) })

/-- The per-file loop of `generate_full_output`: identical to the one
of `generate_file_contents` except that a content cache keyed by the
absolute path string is consulted before reading, and the error
comments are in English. -/
def contentsLoopEn (dec : DecOracle) (fs : List String → FileState)
    (file_cache : List (String × String)) : List Item → List String
  | [] => []
  | item :: rest =>
    if item.is_dir then contentsLoopEn dec fs file_cache rest
    else
      let file_path := item.path
      let rel_path_str := pyStr item.rel_path
      let language := languageFor file_path
      let content := match file_cache.lookup (strOfAbs file_path) with
        | some c => c
        | none =>
          match read_text_file dec fs file_path with
          | .error r => "// Error: " ++ r.error_type ++ " - " ++ r.details
          | .ok s => s
      ("File: " ++ rel_path_str) :: ("```" ++ language) :: content :: "```" :: "" ::
        contentsLoopEn dec fs file_cache rest

/-- `generate_full_output(root_path, file_paths, file_cache)` of
`output_formatter.py`: builds the items, generates the file map from
all of them, builds the contents list over the sorted non-directory
subset, and returns `f"(file_map)\n\n(joined contents)"`. -/
def generate_full_output (dec : DecOracle) (fs : List String → FileState)
    (root_path : List String) (file_paths : List (List String))
    (file_cache : List (String × String)) : String :=
  let items := fullOutputItems fs root_path file_paths
  let file_map := generate_file_map items root_path
  let sorted_items := List.insertionSort itemLe (items.filter (fun i => !i.is_dir))
  let contents :=
    "<file_contents>" :: (contentsLoopEn dec fs file_cache sorted_items ++ ["</file_contents>"])
  file_map ++ "\n\n" ++ joinNL contents

/-! ## file_scanner.py: `scan_directory` -/

/-- A filesystem subtree as the scanner observes it: a regular file, a
directory with its named children in OS iteration order, or a symbolic
link whose resolved target is the given subtree (`none` for a broken
link). -/
inductive FSNode where
  | file
  | dir (children : List (String × FSNode))
  | symlink (target : Option FSNode)

/-- Resolution of symlink chains (what `exists` and `is_dir` follow). -/
def FSNode.resolve : FSNode → Option FSNode
  | .symlink (some n) => n.resolve
  | .symlink none => none
  | n => some n

/-- Python `path.is_symlink()`. -/
def isSymNode : FSNode → Bool
  | .symlink _ => true
  | _ => false

/-- Python `path.exists()` (follows symlinks). -/
def existsNode (n : FSNode) : Bool := n.resolve.isSome

/-- Python `path.is_dir()` (follows symlinks). -/
def isDirNodeFS (n : FSNode) : Bool :=
  match n.resolve with
  | some (.dir _) => true
  | _ => false

/-- One scanned filesystem item as produced by `scan_directory`: the
dictionary with keys `path`, `rel_path`, `is_dir`, `is_symlink`,
`is_hidden` and the optional `error` marker (`is_dir` is `none` only
on the access-denied branch, which needs an OS failure and therefore
never fires in this model). -/
structure Entry where
  path : List String
  rel_path : List String
  is_dir : Option Bool
  is_symlink : Bool
  is_hidden : Bool
  error : Option String
deriving Repr, DecidableEq

mutual
/-- The child loop of `_scan_directory_recursive` over
`current_path.iterdir()`: skip paths already present in the item list
(the `processed_paths` set always equals the set of paths of the
current items); skip hidden children unless included; force `is_dir`
to false for a symlink that is not followed; append the child entry;
and recurse into directories, or into followed symlinks. The
per-child and per-directory `PermissionError` handlers of the source
need OS failures and are not reachable in this model. -/
def scanChildren (follow incl : Bool) (root curRel : List String) :
    List (String × FSNode) → List Entry → List Entry
  | [], items => items
  | (name, child) :: rest, items =>
    let path := root ++ curRel ++ [name]
    let items1 :=
      if (items.map (fun e => e.path)).contains path then items
      else
        let is_symlink := isSymNode child
        let is_dir0 := isDirNodeFS child
        let hid := is_hidden name
        if hid && !incl then items
        else
          let is_dir := if is_symlink && !follow then false else is_dir0
          let rel := curRel ++ [name]
          let e : Entry := ⟨root ++ rel, rel, some is_dir, is_symlink, hid, none⟩
          let items2 := items ++ [e]
          if is_dir && (!is_symlink || follow) then scanDescend follow incl root rel child items2
          else items2
    scanChildren follow incl root curRel rest items1

/-- Iterating `path.iterdir()` for a directory entry: the OS resolves
symlink chains on the spot, so iteration reaches the children of the
resolved directory. -/
def scanDescend (follow incl : Bool) (root rel : List String) :
    FSNode → List Entry → List Entry
  | .dir cs, items => scanChildren follow incl root rel cs items
  | .symlink (some t), items => scanDescend follow incl root rel t items
  | .symlink none, items => items
  | .file, items => items
end

/-- The error raised by `scan_directory` for a bad root: a
`FileNotFoundError` or a `ValueError`. -/
inductive ScanErr where
  | fileNotFound (details : String)
  | valueError (details : String)
deriving Repr, DecidableEq

/-- `scan_directory(root_path, follow_symlinks, include_hidden)` of
`file_scanner.py` against the node found at the root path (`none`
when nothing is there): `FileNotFoundError` when the root does not
exist, `ValueError` when it is not a directory, otherwise the
synthesized root entry followed by the recursive scan. -/
def scan_directory (root_path : List String) (rootNode : Option FSNode)
    (follow_symlinks include_hidden : Bool) : Except ScanErr (List Entry) :=
  match rootNode with
  | none => .error (.fileNotFound ("경로가 존재하지 않음: " ++ strOfAbs root_path))
  | some n =>
    if existsNode n = false then
      .error (.fileNotFound ("경로가 존재하지 않음: " ++ strOfAbs root_path))
    else if isDirNodeFS n = false then
      .error (.valueError ("입력 경로가 디렉토리가 아님: " ++ strOfAbs root_path))
    else
      let root_item : Entry :=
        ⟨root_path, [], some true, isSymNode n, is_hidden (pyName root_path), none⟩
      .ok (scanDescend follow_symlinks include_hidden root_path [] n [root_item])

/-! ## filter.py: `GitignoreFilter` -/

/-- The state of a constructed `GitignoreFilter`: the root directory,
the compiled pattern set (an opaque match predicate from `pathspec`)
or `None`, and the path of the loaded ignore file. -/
structure GitignoreFilter where
  root_dir : List String
  spec : Option (String → Bool)
  gitignore_path : Option (List String)

/-- The constructor plus `_load_gitignore`: `content` is what sits at
`root_dir/.gitignore` (`none` when it does not exist or is not a
file), and `compile` stands for `pathspec.PathSpec.from_lines`
(`none` when reading or compiling raises, in which case the handler
leaves `spec` as `None`). -/
def GitignoreFilter.make (root_dir : List String) (content : Option String)
    (compile : String → Option (String → Bool)) : GitignoreFilter :=
  match content with
  | none => ⟨root_dir, none, none⟩
  | some c =>
    match compile c with
    | some s => ⟨root_dir, some s, some (root_dir ++ [".gitignore"])⟩
    | none => ⟨root_dir, none, some (root_dir ++ [".gitignore"])⟩

/-- A path handed to `should_ignore`: absolute or relative, with its
parts. -/
structure InPath where
  isAbs : Bool
  parts : List String

/-- `should_ignore(path)` of `filter.py`: false when no pattern set is
loaded; an absolute path is made relative to the root
(`ValueError`, meaning the path is not under the root, yields false);
the separator normalization is the identity on POSIX; then the
pattern set is consulted. -/
def should_ignore (f : GitignoreFilter) (p : InPath) : Bool :=
  match f.spec with
  | none => false
  | some spec =>
    if p.isAbs then
      if f.root_dir.isPrefixOf p.parts then
        spec (pyStr (p.parts.drop f.root_dir.length))
      else false
    else spec (pyStr p.parts)

/-! ## tokenizer.py: `Tokenizer` -/

/-- The `TOKENIZER_MODELS` table: model name to encoding name and
optional maximum token count. -/
def TOKENIZER_MODELS : List (String × (String × Option Nat)) :=
  [("gpt-3.5-turbo", ("cl100k_base", some 4096)),
   ("gpt-3.5-turbo-16k", ("cl100k_base", some 16384)),
   ("gpt-4", ("cl100k_base", some 8192)),
   ("gpt-4-32k", ("cl100k_base", some 32768)),
   ("gpt-4-turbo", ("cl100k_base", some 128000)),
   ("text-embedding-ada-002", ("cl100k_base", none))]

/-- A constructed `Tokenizer`: the (possibly substituted) model name
and the live encoding object, modelled as an oracle from text to the
token list or to the message of a raised exception. -/
structure Tokenizer where
  model_name : String
  encoding : String → Except String (List Nat)

/-- `Tokenizer.count_tokens(text)`: 0 for `None` or the empty string;
otherwise the length of the encoded token list, with any encoding
failure caught and turned into 0. -/
def Tokenizer.count_tokens (t : Tokenizer) (text : Option String) : Nat :=
  match text with
  | none => 0
  | some s =>
    if s = "" then 0
    else
      match t.encoding s with
      | .ok tokens => tokens.length
      | .error _ => 0

/-! ## Derived notions used by the statements and proofs -/

/-- Lookup of a whole component path in a tree dict: descends through
nested dicts and returns the node found at the last component. The
empty path names no node. -/
def dictGetPath : List (String × PyNode) → List String → Option PyNode
  | _, [] => none
  | es, [p] => dictGet es p
  | es, p :: q :: rest =>
    match dictGet es p with
    | some (.dict es') => dictGetPath es' (q :: rest)
    | _ => none

/-- Test for a file leaf behind an optional node (used to state
hypotheses decidably, since the nested `PyNode` has no derived
decidable equality). -/
def isSomeFileLeaf : Option PyNode → Bool
  | some .fileLeaf => true
  | _ => false

/-- A valid component of a `pathlib.Path`: nonempty, not the "."
component (pathlib normalizes both away) and free of the separator. -/
def validPart (p : String) : Bool := !(p = "") && !(p = ".") && !(p.data.contains '/')

/-- All components valid, i.e. the list is the `parts` of an actual
relative `pathlib.Path`. -/
def validParts (ps : List String) : Bool := ps.all validPart

/-- What holds of every entry appended below `curRel` by the scan
recursion: its relative path strictly extends `curRel`, its absolute
path is the root plus the relative path, it carries no error marker,
and with `follow_symlinks` false a symlink entry is recorded as a
non-directory. -/
def newScanProp (follow : Bool) (root curRel : List String) (e : Entry) : Prop :=
  (∃ nm r, e.rel_path = curRel ++ nm :: r) ∧
  e.path = root ++ e.rel_path ∧
  e.error = none ∧
  (follow = false → e.is_symlink = true → e.is_dir = some false)

/-- An entry list in which some non-symlink directory entry carries the
given relative path. -/
def goodDirAt (es : List Entry) (q : List String) : Prop :=
  ∃ e ∈ es, e.rel_path = q ∧ e.is_symlink = false ∧ e.is_dir = some true

/-- Every entry of the list has, at every nonempty proper prefix of its
relative path, a non-symlink directory entry in the same list. -/
def ancClosed (es : List Entry) : Prop :=
  ∀ e ∈ es, ∀ q, q ≠ [] → q <+: e.rel_path → q ≠ e.rel_path → goodDirAt es q

/-- Pairwise distinctness of a name list. -/
def distinctKeys : List String → Bool
  | [] => true
  | x :: xs => !(xs.contains x) && distinctKeys xs

mutual
/-- A subtree in which every reachable child is neither hidden nor a
symlink, and sibling names are pairwise distinct (the filesystem
invariant). -/
def plainNode : FSNode → Bool
  | .file => true
  | .symlink _ => false
  | .dir cs => distinctKeys (cs.map Prod.fst) && plainChildren cs

def plainChildren : List (String × FSNode) → Bool
  | [] => true
  | (n, c) :: rest => !(is_hidden n) && plainNode c && plainChildren rest
end

mutual
/-- The number of filesystem entries reachable by the scan below a
node (counting each directory entry and each file entry once). -/
def countNode : FSNode → Nat
  | .dir cs => countChildren cs
  | _ => 0

def countChildren : List (String × FSNode) → Nat
  | [] => 0
  | (_, c) :: rest => (1 + countNode c) + countChildren rest
end

/-- Specification-side form of the per-file loop of
`generate_full_output`, modelled from the claim wording for the
composition: it consumes a list that is already the file subset, with
no in-loop directory guard. -/
def contentsLoopEnFiles (dec : DecOracle) (fs : List String → FileState)
    (file_cache : List (String × String)) : List Item → List String
  | [] => []
  | item :: rest =>
    let file_path := item.path
    let rel_path_str := pyStr item.rel_path
    let language := languageFor file_path
    let content := match file_cache.lookup (strOfAbs file_path) with
      | some c => c
      | none =>
        match read_text_file dec fs file_path with
        | .error r => "// Error: " ++ r.error_type ++ " - " ++ r.details
        | .ok s => s
    ("File: " ++ rel_path_str) :: ("```" ++ language) :: content :: "```" :: "" ::
      contentsLoopEnFiles dec fs file_cache rest

/-- Specification-side form of the `<file_contents>` section of
`generate_full_output` over the file subset. -/
def contentsSectionEn (dec : DecOracle) (fs : List String → FileState)
    (file_cache : List (String × String)) (files : List Item) : String :=
  joinNL ("<file_contents>" :: (contentsLoopEnFiles dec fs file_cache files ++ ["</file_contents>"]))

/-- No accumulated entry already sits at or below any of the children
about to be scanned (so the dedup check never fires for them). -/
def freshFor (root curRel : List String) (cs : List (String × FSNode))
    (items : List Entry) : Prop :=
  ∀ nc ∈ cs, ∀ e ∈ items, ¬((root ++ curRel ++ [nc.1]) <+: e.path)

/-- Existence of the scan root (`root_path.exists()`): nothing at the
path, or a node whose symlink resolution fails, means no root. -/
def rootExists : Option FSNode → Bool
  | none => false
  | some n => existsNode n

/-- Directory test of the scan root (`root_path.is_dir()`). -/
def rootIsDir : Option FSNode → Bool
  | none => false
  | some n => isDirNodeFS n

/-! ## Concrete oracles and inputs used by the witnesses -/

/-- A small concrete filesystem for witnesses. -/
def exFs : List String → FileState
  | ["r", "x.exe"] => .present [1, 2]
  | ["r", "null.txt"] => .present [65, 0, 66]
  | ["r", "ok.txt"] => .present [104, 105]
  | ["r", "sub"] => .directory
  | _ => .absent

/-- A small concrete decoding oracle for witnesses. -/
def exDec : DecOracle := fun enc bytes =>
  if enc = "utf-8" && !bytes.contains 0 then .ok "hi" else .error "invalid byte"

/-- A small concrete pattern match oracle for witnesses. -/
def exSpec : String → Bool := fun s => s = "build"

/-- A small concrete pattern compiler oracle for witnesses. -/
def exCompile : String → Option (String → Bool) := fun c =>
  if c = "build\n" then some exSpec else none

/-- A concrete selection for the formatter witnesses: a file and a
second file nested below the first path. -/
def exItems : List Item :=
  [⟨["p", "a"], ["a"], false⟩, ⟨["p", "a", "b"], ["a", "b"], false⟩]

/-- A concrete tokenizer whose encoding oracle fails on the text
"boom" and otherwise yields one token per character. -/
def exTok : Tokenizer :=
  ⟨"gpt-3.5-turbo", fun s => if s = "boom" then .error "encoding failed" else .ok (s.data.map Char.toNat)⟩

/-! ## Claim theorems -/

/-- C8: `count_tokens` returns 0 when its input is None or the empty
string; when the underlying encoding call fails it returns 0 rather
than propagating the exception; otherwise it returns the number of
tokens produced by encoding the text. -/
theorem claim_C8 (t : Tokenizer) (s : String) :
    t.count_tokens none = 0 ∧
    t.count_tokens (some "") = 0 ∧
    (∀ msg, t.encoding s = .error msg → t.count_tokens (some s) = 0) ∧
    (∀ tokens, s ≠ "" → t.encoding s = .ok tokens → t.count_tokens (some s) = tokens.length) := by
  refine ⟨rfl, by simp [Tokenizer.count_tokens], ?_, ?_⟩
  · intro msg h
    by_cases hs : s = ""
    · simp [Tokenizer.count_tokens, hs]
    · simp [Tokenizer.count_tokens, hs, h]
  · intro tokens hs h
    simp [Tokenizer.count_tokens, hs, h]

/-- Witness for C8 at the concrete tokenizer `exTok`. -/
theorem claim_C8_witness :
    exTok.count_tokens (some "hi") = 2 ∧ exTok.count_tokens (some "boom") = 0 := by
  constructor
  · exact (claim_C8 exTok "hi").2.2.2 [104, 105] (by decide) (by decide)
  · exact (claim_C8 exTok "boom").2.2.1 "encoding failed" (by decide)

/-- C7: every file path classified binary by `is_binary_file` makes
`read_text_file` return an error record, never the raw content. -/
theorem claim_C7 (dec : DecOracle) (fs : List String → FileState) (p : List String)
    (h : is_binary_file fs p = true) :
    ∃ r : ErrRec, read_text_file dec fs p = Except.error r := by
  have hex : fsExists (fs p) = true := by
    rcases hfp : fs p with _ | _ | bytes
    · simp [is_binary_file, hfp] at h
    · simp [is_binary_file, hfp] at h
    · rfl
  exact ⟨⟨"binary_file", "TypeError", "바이너리 파일은 텍스트로 읽을 수 없음: " ++ strOfAbs p, [], []⟩,
    by simp [read_text_file, hex, h]⟩

/-- Witness for C7 at a concrete binary file. -/
theorem claim_C7_witness :
    is_binary_file exFs ["r", "x.exe"] = true ∧
    ∃ r : ErrRec, read_text_file exDec exFs ["r", "x.exe"] = Except.error r :=
  ⟨by decide, claim_C7 exDec exFs ["r", "x.exe"] (by decide)⟩

/-- C9: a filter built from a root with no loadable `.gitignore`
(either no file, or a failed load) never ignores anything, and a
loaded filter never ignores an absolute path outside its root. -/
theorem claim_C9 :
    (∀ (root : List String) (compile : String → Option (String → Bool)) (p : InPath),
        should_ignore (GitignoreFilter.make root none compile) p = false) ∧
    (∀ (root : List String) (content : String) (compile : String → Option (String → Bool))
        (p : InPath), compile content = none →
        should_ignore (GitignoreFilter.make root (some content) compile) p = false) ∧
    (∀ (root : List String) (content : String) (compile : String → Option (String → Bool))
        (spec : String → Bool) (p : InPath), compile content = some spec →
        p.isAbs = true → root.isPrefixOf p.parts = false →
        should_ignore (GitignoreFilter.make root (some content) compile) p = false) := by
  refine ⟨fun root compile p => rfl, ?_, ?_⟩
  · intro root content compile p h
    simp [GitignoreFilter.make, h, should_ignore]
  · intro root content compile spec p hc habs hpre
    simp [GitignoreFilter.make, hc, should_ignore, habs, hpre]

/-- Witness for C9 at concrete filters and paths. -/
theorem claim_C9_witness :
    should_ignore (GitignoreFilter.make ["home"] none exCompile) ⟨true, ["home", "build"]⟩ = false ∧
    should_ignore (GitignoreFilter.make ["home"] (some "oops") exCompile)
      ⟨true, ["home", "build"]⟩ = false ∧
    should_ignore (GitignoreFilter.make ["home"] (some "build\n") exCompile)
      ⟨true, ["elsewhere", "build"]⟩ = false :=
  ⟨claim_C9.1 ["home"] exCompile ⟨true, ["home", "build"]⟩,
   claim_C9.2.1 ["home"] "oops" exCompile ⟨true, ["home", "build"]⟩ rfl,
   claim_C9.2.2 ["home"] "build\n" exCompile exSpec ⟨true, ["elsewhere", "build"]⟩ rfl rfl
     (by decide)⟩

/-- C1: the claim says `generate_file_contents` returns exactly the
`<file_contents>` section; on the code the return statement
interpolates the unbound name `file_map`, so every call raises
`NameError` instead of returning the section. The theorem evaluates
the embedding at a concrete one-file input. -/
theorem claim_C1 :
    generate_file_contents exDec exFs [⟨["r", "ok.txt"], ["ok.txt"], false⟩] ["r"] =
      Except.error (PyErr.nameError "file_map") := rfl

/-- On a list of file items (no directories), the in-loop directory
guard of the `generate_full_output` content loop never fires, so the
loop agrees with the specification-side loop over the file subset. -/
theorem contentsLoopEn_files (dec : DecOracle) (fs : List String → FileState)
    (file_cache : List (String × String)) :
    ∀ l : List Item, (∀ i ∈ l, i.is_dir = false) →
    contentsLoopEn dec fs file_cache l = contentsLoopEnFiles dec fs file_cache l := by
  intro l
  induction l with
  | nil => intro _; rfl
  | cons it rest ih =>
    intro h
    have hd : it.is_dir = false := h it (by simp)
    simp only [contentsLoopEn, contentsLoopEnFiles, hd, Bool.false_eq_true, if_false]
    rw [ih (fun i hi => h i (by simp [hi]))]

/-- C2: `generate_full_output` builds the `<file_map>` section from
the entire selection (directories included), builds the
`<file_contents>` section from only the non-directory items, and
returns the map, two newlines, then the contents section. -/
theorem claim_C2 (dec : DecOracle) (fs : List String → FileState)
    (root_path : List String) (file_paths : List (List String))
    (file_cache : List (String × String)) :
    generate_full_output dec fs root_path file_paths file_cache =
      generate_file_map (fullOutputItems fs root_path file_paths) root_path ++ "\n\n" ++
      contentsSectionEn dec fs file_cache
        (sortedItems ((fullOutputItems fs root_path file_paths).filter (fun i => !i.is_dir))) := by
  have hfiles : ∀ i ∈ sortedItems ((fullOutputItems fs root_path file_paths).filter
      (fun i => !i.is_dir)), i.is_dir = false := by
    intro i hi
    have h1 := (List.mem_insertionSort itemLe).mp hi
    have h2 := List.mem_filter.mp h1
    simpa using h2.2
  unfold generate_full_output contentsSectionEn
  rw [← contentsLoopEn_files dec fs file_cache _ hfiles]
  rfl

/-- Entries satisfying the scan property one level deeper also satisfy
it at the shallower level. -/
theorem newScanProp_weaken (follow : Bool) (root curRel : List String) (name : String)
    (e : Entry) : newScanProp follow root (curRel ++ [name]) e →
    newScanProp follow root curRel e := by
  rintro ⟨⟨nm, r, hrel⟩, hp, he, hs⟩
  refine ⟨⟨name, nm :: r, ?_⟩, hp, he, hs⟩
  simpa [List.append_assoc] using hrel

/-- The scan child loop only extends its accumulated item list (the
input is a prefix of the output), and every output entry either was
already there or satisfies `newScanProp` at the level of the call. -/
theorem scanChildren_spec (follow incl : Bool) (root : List String) :
    ∀ (curRel : List String) (cs : List (String × FSNode)) (items : List Entry),
    items <+: scanChildren follow incl root curRel cs items ∧
      ∀ e ∈ scanChildren follow incl root curRel cs items,
        e ∈ items ∨ newScanProp follow root curRel e := by
  refine scanChildren.induct follow incl root
    (fun curRel cs items => items <+: scanChildren follow incl root curRel cs items ∧
      ∀ e ∈ scanChildren follow incl root curRel cs items,
        e ∈ items ∨ newScanProp follow root curRel e)
    (fun rel n items => items <+: scanDescend follow incl root rel n items ∧
      ∀ e ∈ scanDescend follow incl root rel n items,
        e ∈ items ∨ newScanProp follow root rel e)
    ?_ ?_ ?_ ?_ ?_ ?_
  · -- descend into a directory node
    intro rel cs items ih
    simp only [scanDescend]
    exact ih
  · -- descend through a symlink
    intro rel t items ih
    simp only [scanDescend]
    exact ih
  · -- broken symlink
    intro rel items
    simp only [scanDescend]
    exact ⟨List.prefix_rfl, fun e he => .inl he⟩
  · -- regular file
    intro rel items
    simp only [scanDescend]
    exact ⟨List.prefix_rfl, fun e he => .inl he⟩
  · -- empty child list
    intro curRel items
    simp only [scanChildren]
    exact ⟨List.prefix_rfl, fun e he => .inl he⟩
  · -- child loop step
    intro curRel name child rest items path items1 ih2 ih1
    unfold_let items1 path at ih1
    simp only [] at ih1 ih2
    simp only [scanChildren]
    split_ifs at ih1 ih2 ⊢
    all_goals
      first
      | exact ih1
      | ( -- descend into the child after appending its entry
         refine ⟨((List.prefix_append items _).trans ih2.1).trans ih1.1, ?_⟩
         intro x hx
         rcases ih1.2 x hx with hx1 | hx1
         · rcases ih2.2 x hx1 with hx2 | hx2
           · rcases List.mem_append.mp hx2 with hx3 | hx3
             · exact .inl hx3
             · refine .inr ?_
               rw [List.mem_singleton.mp hx3]
               refine ⟨⟨name, [], by simp⟩, by simp, by simp, ?_⟩
               intro hf hsy
               simp_all
           · exact .inr (newScanProp_weaken follow root curRel name x hx2)
         · exact .inr hx1)
      | ( -- append the entry without recursing
         refine ⟨(List.prefix_append items _).trans ih1.1, ?_⟩
         intro x hx
         rcases ih1.2 x hx with hx1 | hx1
         · rcases List.mem_append.mp hx1 with hx2 | hx2
           · exact .inl hx2
           · refine .inr ?_
             rw [List.mem_singleton.mp hx2]
             refine ⟨⟨name, [], by simp⟩, by simp, by simp, ?_⟩
             intro hf hsy
             simp_all
         · exact .inr hx1)

/-- The `scanChildren_spec` property transported to `scanDescend`. -/
theorem scanDescend_spec (follow incl : Bool) (root : List String) :
    ∀ (rel : List String) (n : FSNode) (items : List Entry),
    items <+: scanDescend follow incl root rel n items ∧
      ∀ e ∈ scanDescend follow incl root rel n items,
        e ∈ items ∨ newScanProp follow root rel e := by
  intro rel n
  induction n using FSNode.resolve.induct with
  | case1 t ih =>
    intro items
    simp only [scanDescend]
    exact ih items
  | case2 =>
    intro items
    simp only [scanDescend]
    exact ⟨List.prefix_rfl, fun e he => .inl he⟩
  | case3 x h1 =>
    intro items
    cases x with
    | file =>
      simp only [scanDescend]
      exact ⟨List.prefix_rfl, fun e he => .inl he⟩
    | dir cs =>
      simp only [scanDescend]
      exact scanChildren_spec follow incl root rel cs items
    | symlink t =>
      cases t with
      | none =>
        simp only [scanDescend]
        exact ⟨List.prefix_rfl, fun e he => .inl he⟩
      | some u => exact absurd rfl (h1 u)

/-- The scan child loop preserves distinctness of the absolute paths
of the accumulated entries (the `processed_paths` dedup check blocks
every repeated path). -/
theorem scanChildren_nodup (follow incl : Bool) (root : List String) :
    ∀ (curRel : List String) (cs : List (String × FSNode)) (items : List Entry),
    (items.map (fun e => e.path)).Nodup →
      ((scanChildren follow incl root curRel cs items).map (fun e => e.path)).Nodup := by
  refine scanChildren.induct follow incl root
    (fun curRel cs items => (items.map (fun e => e.path)).Nodup →
      ((scanChildren follow incl root curRel cs items).map (fun e => e.path)).Nodup)
    (fun rel n items => (items.map (fun e => e.path)).Nodup →
      ((scanDescend follow incl root rel n items).map (fun e => e.path)).Nodup)
    ?_ ?_ ?_ ?_ ?_ ?_
  · intro rel cs items ih
    simp only [scanDescend]
    exact ih
  · intro rel t items ih
    simp only [scanDescend]
    exact ih
  · intro rel items
    simp only [scanDescend]
    exact id
  · intro rel items
    simp only [scanDescend]
    exact id
  · intro curRel items
    simp only [scanChildren]
    exact id
  · intro curRel name child rest items path items1 ih2 ih1
    unfold_let items1 path at ih1
    simp only [] at ih1 ih2
    simp only [scanChildren]
    split_ifs at ih1 ih2 ⊢ with h1 h2 h3
    all_goals
      first
      | exact ih1
      | (intro h
         refine ih1 (ih2 ?_)
         try simp only [List.map_append, List.map_cons, List.map_nil]
         rw [(List.perm_append_singleton _ _).nodup_iff, List.nodup_cons]
         refine ⟨?_, h⟩
         intro hmem
         obtain ⟨x, hx, hxp⟩ := List.mem_map.mp hmem
         simp_all)
      | (intro h
         refine ih1 ?_
         try simp only [List.map_append, List.map_cons, List.map_nil]
         rw [(List.perm_append_singleton _ _).nodup_iff, List.nodup_cons]
         refine ⟨?_, h⟩
         intro hmem
         obtain ⟨x, hx, hxp⟩ := List.mem_map.mp hmem
         simp_all)
      | simp_all

/-- The `scanChildren_nodup` property transported to `scanDescend`. -/
theorem scanDescend_nodup (follow incl : Bool) (root : List String) :
    ∀ (rel : List String) (n : FSNode) (items : List Entry),
    (items.map (fun e => e.path)).Nodup →
      ((scanDescend follow incl root rel n items).map (fun e => e.path)).Nodup := by
  intro rel n
  induction n using FSNode.resolve.induct with
  | case1 t ih =>
    intro items
    simp only [scanDescend]
    exact ih items
  | case2 =>
    intro items
    simp only [scanDescend]
    exact id
  | case3 x h1 =>
    intro items
    cases x with
    | file =>
      simp only [scanDescend]
      exact id
    | dir cs =>
      simp only [scanDescend]
      exact scanChildren_nodup follow incl root rel cs items
    | symlink t =>
      cases t with
      | none =>
        simp only [scanDescend]
        exact id
      | some u => exact absurd rfl (h1 u)

/-- C4: `scan_directory` raises the not-found error exactly when the
root does not exist, raises the invalid-argument error exactly when
the root exists but is not a directory, and every successful scan
contains exactly one root entry, whose `rel_path` is "." and whose
`is_dir` is true. -/
theorem claim_C4 (root_path : List String) (rootNode : Option FSNode)
    (follow incl : Bool) :
    ((∃ d, scan_directory root_path rootNode follow incl = .error (.fileNotFound d)) ↔
        rootExists rootNode = false) ∧
    ((∃ d, scan_directory root_path rootNode follow incl = .error (.valueError d)) ↔
        (rootExists rootNode = true ∧ rootIsDir rootNode = false)) ∧
    (∀ es, scan_directory root_path rootNode follow incl = .ok es →
        (es.filter (fun e => e.rel_path.isEmpty)).length = 1 ∧
        ∀ e ∈ es, e.rel_path = [] → e.is_dir = some true) := by
  cases rootNode with
  | none =>
    refine ⟨⟨fun _ => rfl, fun _ => ⟨_, rfl⟩⟩, ⟨?_, ?_⟩, ?_⟩
    · rintro ⟨d, hd⟩
      simp [scan_directory] at hd
    · rintro ⟨h, _⟩
      simp [rootExists] at h
    · intro es hes
      simp [scan_directory] at hes
  | some n =>
    by_cases hex : existsNode n = false
    · refine ⟨⟨fun _ => by simp [rootExists, hex],
        fun _ => ⟨"경로가 존재하지 않음: " ++ strOfAbs root_path, by simp [scan_directory, hex]⟩⟩,
        ⟨?_, ?_⟩, ?_⟩
      · rintro ⟨d, hd⟩
        simp [scan_directory, hex] at hd
      · rintro ⟨h, _⟩
        simp [rootExists, hex] at h
      · intro es hes
        simp [scan_directory, hex] at hes
    · have hex2 : existsNode n = true := by revert hex; cases existsNode n <;> simp
      by_cases hdir : isDirNodeFS n = false
      · refine ⟨⟨?_, ?_⟩, ⟨fun _ => ⟨by simp [rootExists, hex2], by simp [rootIsDir, hdir]⟩,
          fun _ => ⟨"입력 경로가 디렉토리가 아님: " ++ strOfAbs root_path,
            by simp [scan_directory, hex2, hdir]⟩⟩, ?_⟩
        · rintro ⟨d, hd⟩
          simp [scan_directory, hex2, hdir] at hd
        · intro h
          rw [rootExists, hex2] at h
          exact absurd h (by simp)
        · intro es hes
          simp [scan_directory, hex2, hdir] at hes
      · have hdir2 : isDirNodeFS n = true := by revert hdir; cases isDirNodeFS n <;> simp
        refine ⟨⟨?_, ?_⟩, ⟨?_, ?_⟩, ?_⟩
        · rintro ⟨d, hd⟩
          simp [scan_directory, hex2, hdir2] at hd
        · intro h
          rw [rootExists, hex2] at h
          exact absurd h (by simp)
        · rintro ⟨d, hd⟩
          simp [scan_directory, hex2, hdir2] at hd
        · rintro ⟨_, h⟩
          rw [rootIsDir, hdir2] at h
          exact absurd h (by simp)
        · intro es hes
          simp only [scan_directory, hex2, hdir2] at hes
          simp only [Bool.true_eq_false, if_false, Except.ok.injEq] at hes
          set root_item : Entry :=
            ⟨root_path, [], some true, isSymNode n, is_hidden (pyName root_path), none⟩ with hri
          have hspec := scanDescend_spec follow incl root_path [] n [root_item]
          have hnodup := scanDescend_nodup follow incl root_path [] n [root_item] (by simp)
          rw [hes] at hspec hnodup
          obtain ⟨⟨t, ht⟩, hmem⟩ := hspec
          have htes : es = root_item :: t := by rw [← ht]; rfl
          constructor
          · rw [htes]
            have hfilt : t.filter (fun e => e.rel_path.isEmpty) = [] := by
              rw [List.filter_eq_nil_iff]
              intro x hx hpred
              have hxes : x ∈ es := by rw [htes]; exact List.mem_cons_of_mem _ hx
              rcases hmem x hxes with hx1 | hx1
              · have hxr : x = root_item := List.mem_singleton.mp hx1
                rw [htes] at hnodup
                simp only [List.map_cons, List.nodup_cons] at hnodup
                exact hnodup.1 (List.mem_map_of_mem (fun e => e.path) (hxr ▸ hx))
              · obtain ⟨⟨nm, r, hrel⟩, _, _, _⟩ := hx1
                rw [hrel] at hpred
                simp at hpred
            simp [hfilt, hri]
          · intro e he hrel
            rcases hmem e he with h1 | h1
            · rw [List.mem_singleton.mp h1, hri]
            · obtain ⟨⟨nm, r, hrel2⟩, _, _, _⟩ := h1
              rw [hrel] at hrel2
              simp at hrel2

/-- Witness for C4: a failing root and a successful one-file scan. -/
theorem claim_C4_witness :
    (∃ d, scan_directory ["r"] none false false = .error (.fileNotFound d)) ∧
    ((List.filter (fun e => e.rel_path.isEmpty)
        [(⟨["r"], [], some true, false, false, none⟩ : Entry),
         ⟨["r", "a"], ["a"], some false, false, false, none⟩]).length = 1 ∧
      ∀ e ∈ [(⟨["r"], [], some true, false, false, none⟩ : Entry),
         ⟨["r", "a"], ["a"], some false, false, false, none⟩],
        e.rel_path = [] → e.is_dir = some true) :=
  ⟨(claim_C4 ["r"] none false false).1.mpr (by decide),
   (claim_C4 ["r"] (some (.dir [("a", .file)])) false false).2.2 _ (by decide)⟩

theorem goodDirAt_mono {es es2 : List Entry} {q : List String}
    (hsub : ∀ e ∈ es, e ∈ es2) : goodDirAt es q → goodDirAt es2 q := by
  rintro ⟨e, he, h⟩
  exact ⟨e, hsub e he, h⟩

/-- A proper prefix of a snoc list is a prefix of its front. -/
theorem prefix_of_proper_prefix_snoc {q l : List String} {a : String}
    (h : q <+: l ++ [a]) (hne : q ≠ l ++ [a]) : q <+: l := by
  refine List.prefix_of_prefix_length_le h (List.prefix_append l [a]) ?_
  have h1 : q.length ≤ (l ++ [a]).length := h.length_le
  have h2 : q.length ≠ (l ++ [a]).length := by
    intro heq
    exact hne (List.IsPrefix.eq_of_length h heq)
  simp only [List.length_append, List.length_singleton] at h1 h2
  omega

/-- With `follow_symlinks` false, the scan child loop preserves the
ancestor closure: every entry it has produced sits below a chain of
recorded non-symlink directory entries. -/
theorem scanChildren_anc (incl : Bool) (root : List String) :
    ∀ (curRel : List String) (cs : List (String × FSNode)) (items : List Entry),
    ancClosed items → (curRel = [] ∨ goodDirAt items curRel) →
      ancClosed (scanChildren false incl root curRel cs items) := by
  refine scanChildren.induct false incl root
    (fun curRel cs items => ancClosed items → (curRel = [] ∨ goodDirAt items curRel) →
      ancClosed (scanChildren false incl root curRel cs items))
    (fun rel n items => ancClosed items → (rel = [] ∨ goodDirAt items rel) →
      ancClosed (scanDescend false incl root rel n items))
    ?_ ?_ ?_ ?_ ?_ ?_
  · intro rel cs items ih
    simp only [scanDescend]
    exact ih
  · intro rel t items ih
    simp only [scanDescend]
    exact ih
  · intro rel items
    simp only [scanDescend]
    exact fun h _ => h
  · intro rel items
    simp only [scanDescend]
    exact fun h _ => h
  · intro curRel items
    simp only [scanChildren]
    exact fun h _ => h
  · intro curRel name child rest items path items1 ih2 ih1
    unfold_let items1 path at ih1
    simp only [] at ih1 ih2
    simp only [scanChildren]
    intro hanc hcur
    split_ifs at ih1 ih2 ⊢
    all_goals
      first
      | exact ih1 hanc hcur
      | ( -- descend into the child after appending its entry
         refine ih1 (ih2 ?_ (Or.inr ?_)) ?_
         · intro e he q hq1 hq2 hq3
           rcases List.mem_append.mp he with he1 | he1
           · exact goodDirAt_mono (fun x hx => List.mem_append_left _ hx)
               (hanc e he1 q hq1 hq2 hq3)
           · rw [List.mem_singleton.mp he1] at hq2 hq3
             have hq2a : q <+: curRel ++ [name] := hq2
             have hq3a : q ≠ curRel ++ [name] := hq3
             have hqc : q <+: curRel := prefix_of_proper_prefix_snoc hq2a hq3a
             rcases hcur with hc | hc
             · rw [hc] at hqc
               exact absurd (List.prefix_nil.mp hqc) hq1
             · by_cases hqe : q = curRel
               · exact goodDirAt_mono (fun x hx => List.mem_append_left _ hx) (hqe ▸ hc)
               · obtain ⟨e₀, he₀, hrel₀, hsym₀, hdir₀⟩ := hc
                 refine goodDirAt_mono (fun x hx => List.mem_append_left _ hx)
                   (hanc e₀ he₀ q hq1 ?_ ?_)
                 · rw [hrel₀]; exact hqc
                 · rw [hrel₀]; exact hqe
         · refine ⟨_, List.mem_append_right _ (List.mem_singleton_self _), rfl, ?_, ?_⟩ <;>
             simp_all
         · rcases hcur with hc | hc
           · exact Or.inl hc
           · exact Or.inr (goodDirAt_mono (fun x hx =>
               (scanDescend_spec false incl root _ _ _).1.subset (List.mem_append_left _ hx)) hc))
      | ( -- append the entry without recursing
         refine ih1 ?_ ?_
         · intro e he q hq1 hq2 hq3
           rcases List.mem_append.mp he with he1 | he1
           · exact goodDirAt_mono (fun x hx => List.mem_append_left _ hx)
               (hanc e he1 q hq1 hq2 hq3)
           · rw [List.mem_singleton.mp he1] at hq2 hq3
             have hq2a : q <+: curRel ++ [name] := hq2
             have hq3a : q ≠ curRel ++ [name] := hq3
             have hqc : q <+: curRel := prefix_of_proper_prefix_snoc hq2a hq3a
             rcases hcur with hc | hc
             · rw [hc] at hqc
               exact absurd (List.prefix_nil.mp hqc) hq1
             · by_cases hqe : q = curRel
               · exact goodDirAt_mono (fun x hx => List.mem_append_left _ hx) (hqe ▸ hc)
               · obtain ⟨e₀, he₀, hrel₀, hsym₀, hdir₀⟩ := hc
                 refine goodDirAt_mono (fun x hx => List.mem_append_left _ hx)
                   (hanc e₀ he₀ q hq1 ?_ ?_)
                 · rw [hrel₀]; exact hqc
                 · rw [hrel₀]; exact hqe
         · rcases hcur with hc | hc
           · exact Or.inl hc
           · exact Or.inr (goodDirAt_mono (fun x hx => List.mem_append_left _ hx) hc))

/-- The `scanChildren_anc` property transported to `scanDescend`. -/
theorem scanDescend_anc (incl : Bool) (root : List String) :
    ∀ (rel : List String) (n : FSNode) (items : List Entry),
    ancClosed items → (rel = [] ∨ goodDirAt items rel) →
      ancClosed (scanDescend false incl root rel n items) := by
  intro rel n
  induction n using FSNode.resolve.induct with
  | case1 t ih =>
    intro items
    simp only [scanDescend]
    exact ih items
  | case2 =>
    intro items
    simp only [scanDescend]
    exact fun h _ => h
  | case3 x h1 =>
    intro items
    cases x with
    | file =>
      simp only [scanDescend]
      exact fun h _ => h
    | dir cs =>
      simp only [scanDescend]
      exact scanChildren_anc incl root rel cs items
    | symlink t =>
      cases t with
      | none =>
        simp only [scanDescend]
        exact fun h _ => h
      | some u => exact absurd rfl (h1 u)

/-- Entries of a list whose mapped paths are distinct are determined
by their paths. -/
theorem entry_eq_of_path_eq {es : List Entry}
    (h : (es.map (fun e => e.path)).Nodup) :
    ∀ e ∈ es, ∀ e2 ∈ es, e.path = e2.path → e = e2 := by
  intro e he e2 he2 hp
  exact List.inj_on_of_nodup_map h he he2 hp

/-- Counterexample to C5 as stated: when the scan root itself is a
symlink to a directory, the returned root entry has both
`is_symlink = true` and `is_dir = true`, and the scan iterates the
symlink target (the entry for "a" below). -/
theorem claim_C5_counterexample :
    scan_directory ["r"] (some (.symlink (some (.dir [("a", .file)])))) false false =
      .ok [⟨["r"], [], some true, true, false, none⟩,
           ⟨["r", "a"], ["a"], some false, false, false, none⟩] ∧
    (⟨["r"], [], some true, true, false, none⟩ : Entry).is_symlink = true ∧
    ¬(⟨["r"], [], some true, true, false, none⟩ : Entry).is_dir = some false := by
  refine ⟨by decide, rfl, by decide⟩

/-- C5 (amended): with `follow_symlinks` false, every returned entry
other than the synthesized root entry that is a symlink has `is_dir`
recorded as false, and the scan never recurses into it: no other
returned entry lies at or below its relative path. (The claim as
stated fails for the root entry when the scan root itself is a
symlink to a directory, see the counterexample.) -/
theorem claim_C5 (root_path : List String) (rootNode : Option FSNode) (incl : Bool)
    (es : List Entry) (h : scan_directory root_path rootNode false incl = .ok es) :
    ∀ e ∈ es, e.is_symlink = true → e.rel_path ≠ [] →
      (e.is_dir = some false ∧ ∀ e2 ∈ es, e.rel_path <+: e2.rel_path → e2 = e) := by
  rcases rootNode with _ | n
  · simp [scan_directory] at h
  · simp only [scan_directory] at h
    by_cases hex : existsNode n = false
    · simp [hex] at h
    · have hex2 : existsNode n = true := by revert hex; cases existsNode n <;> simp
      by_cases hdir : isDirNodeFS n = false
      · simp [hex2, hdir] at h
      · have hdir2 : isDirNodeFS n = true := by revert hdir; cases isDirNodeFS n <;> simp
        simp only [hex2, hdir2] at h
        simp only [Bool.true_eq_false, if_false, Except.ok.injEq] at h
        set root_item : Entry :=
          ⟨root_path, [], some true, isSymNode n, is_hidden (pyName root_path), none⟩ with hri
        have hspec := scanDescend_spec false incl root_path [] n [root_item]
        have hnodup := scanDescend_nodup false incl root_path [] n [root_item] (by simp)
        have hanc := scanDescend_anc incl root_path [] n [root_item]
          (by
            intro e he q hq1 hq2 hq3
            rw [List.mem_singleton.mp he] at hq2
            exact absurd (List.prefix_nil.mp hq2) hq1)
          (Or.inl rfl)
        rw [h] at hspec hnodup hanc
        obtain ⟨hpre, hmem⟩ := hspec
        intro e he hsym hrel
        have heprop : newScanProp false root_path [] e := by
          rcases hmem e he with h1 | h1
          · rw [List.mem_singleton.mp h1] at hrel
            exact absurd rfl hrel
          · exact h1
        obtain ⟨⟨nm, r, hrel2⟩, hpath, _, hforce⟩ := heprop
        refine ⟨hforce rfl hsym, ?_⟩
        intro e2 he2 hpre2
        by_cases heq : e2.rel_path = e.rel_path
        · -- same relative path, hence the same absolute path
          have hpath2 : e2.path = root_path ++ e2.rel_path := by
            rcases hmem e2 he2 with h2 | h2
            · rw [List.mem_singleton.mp h2] at heq ⊢
              exact absurd (heq.symm.trans (rfl : root_item.rel_path = [])) hrel
            · exact h2.2.1
          exact entry_eq_of_path_eq hnodup e2 he2 e he
            (by rw [hpath2, hpath, heq]) |>.symm ▸ rfl
        · -- e2 strictly below the symlink entry: its ancestor at the
          -- symlink level must be a non-symlink directory entry with
          -- the same path, contradicting path distinctness
          exfalso
          have hgd := hanc e2 he2 e.rel_path hrel hpre2 (fun hh => heq hh.symm)
          obtain ⟨e₀, he₀, hrel₀, hsym₀, hdir₀⟩ := hgd
          have hpath₀ : e₀.path = root_path ++ e₀.rel_path := by
            rcases hmem e₀ he₀ with h2 | h2
            · rw [List.mem_singleton.mp h2] at hrel₀
              exact absurd ((rfl : root_item.rel_path = []).symm.trans hrel₀).symm hrel
            · exact h2.2.1
          have heq0 : e₀ = e := entry_eq_of_path_eq hnodup e₀ he₀ e he
            (by rw [hpath₀, hpath, hrel₀])
          rw [heq0] at hsym₀
          rw [hsym₀] at hsym
          exact Bool.noConfusion hsym

/-- Witness for the amended C5 at a concrete scan containing a symlink
to a directory below the root. -/
theorem claim_C5_witness :
    scan_directory ["r"] (some (.dir [("s", .symlink (some (.dir [("z", .file)])))]))
        false false
      = .ok [(⟨["r"], [], some true, false, false, none⟩ : Entry),
             ⟨["r", "s"], ["s"], some false, true, false, none⟩] ∧
    ∀ e ∈ [(⟨["r"], [], some true, false, false, none⟩ : Entry),
           ⟨["r", "s"], ["s"], some false, true, false, none⟩],
      e.is_symlink = true → e.rel_path ≠ [] →
      (e.is_dir = some false ∧
        ∀ e2 ∈ [(⟨["r"], [], some true, false, false, none⟩ : Entry),
           ⟨["r", "s"], ["s"], some false, true, false, none⟩],
          e.rel_path <+: e2.rel_path → e2 = e) :=
  ⟨by decide,
   claim_C5 ["r"] (some (.dir [("s", .symlink (some (.dir [("z", .file)])))])) false _
     (by decide)⟩

/-- Heads of extensions of the same front agree when one extension is
a prefix of the other. -/
theorem prefix_head_eq {A : List String} {x y : String} {zs ws : List String}
    (h : (A ++ x :: zs) <+: (A ++ y :: ws)) : x = y := by
  obtain ⟨t, ht⟩ := h
  rw [List.append_assoc] at ht
  have h2 := List.append_cancel_left ht
  simp at h2
  exact h2.1

/-- On a plain subtree (no hidden names, no symlinks, distinct sibling
names) with fresh paths, the scan appends exactly one entry per
reachable filesystem item. -/
theorem scanChildren_count (incl : Bool) (root : List String) :
    ∀ (curRel : List String) (cs : List (String × FSNode)) (items : List Entry),
    plainChildren cs = true → distinctKeys (cs.map Prod.fst) = true →
    freshFor root curRel cs items →
      (scanChildren false incl root curRel cs items).length = items.length + countChildren cs := by
  refine scanChildren.induct false incl root
    (fun curRel cs items => plainChildren cs = true → distinctKeys (cs.map Prod.fst) = true →
      freshFor root curRel cs items →
      (scanChildren false incl root curRel cs items).length = items.length + countChildren cs)
    (fun rel n items => plainNode n = true →
      (∀ cs2, n = .dir cs2 → freshFor root rel cs2 items) →
      (scanDescend false incl root rel n items).length = items.length + countNode n)
    ?_ ?_ ?_ ?_ ?_ ?_
  · intro rel cs items ih hpl hfr
    simp only [scanDescend, countNode]
    have h1 : distinctKeys (cs.map Prod.fst) = true ∧ plainChildren cs = true := by
      simpa [plainNode, Bool.and_eq_true] using hpl
    exact ih h1.2 h1.1 (hfr cs rfl)
  · intro rel t items _ hpl _
    simp [plainNode] at hpl
  · intro rel items hpl _
    simp [plainNode] at hpl
  · intro rel items _ _
    simp [scanDescend, countNode]
  · intro curRel items _ _ _
    simp [scanChildren, countChildren]
  · intro curRel name child rest items path items1 ih2 ih1 hpl hdk hfr
    unfold_let items1 path at ih1
    simp only [] at ih1 ih2
    have hplh : (!is_hidden name && plainNode child && plainChildren rest) = true := hpl
    simp only [Bool.and_eq_true, Bool.not_eq_true'] at hplh
    obtain ⟨⟨hhid, hplc⟩, hplr⟩ := hplh
    have hdkh : (!(rest.map Prod.fst).contains name && distinctKeys (rest.map Prod.fst)) = true := hdk
    simp only [Bool.and_eq_true, Bool.not_eq_true'] at hdkh
    obtain ⟨hnotin, hdkr⟩ := hdkh
    have hname : name ∉ rest.map Prod.fst := by simpa using hnotin
    have hsymf : isSymNode child = false := by
      cases child with
      | file => rfl
      | dir cs2 => rfl
      | symlink t => simp [plainNode] at hplc
    have hdupf : ((items.map (fun e => e.path)).contains (root ++ curRel ++ [name])) = false := by
      have hnm : (root ++ curRel ++ [name]) ∉ items.map (fun e => e.path) := by
        intro hmem
        obtain ⟨e, he, hpe⟩ := List.mem_map.mp hmem
        exact hfr (name, child) (by simp) e he (by rw [hpe])
      simpa using hnm
    -- freshness of the remaining siblings over any result of scanning
    -- the head child
    have hfreshrest : ∀ (items2 : List Entry),
        (∀ e ∈ items2, e ∈ items ∨ e.path = root ++ (curRel ++ [name]) ∨
          (∃ nm r, e.path = root ++ ((curRel ++ [name]) ++ nm :: r))) →
        freshFor root curRel rest items2 := by
      intro items2 hcases nc hnc e he hp
      have hne : nc.1 ≠ name := by
        intro hh
        exact hname (hh ▸ List.mem_map_of_mem Prod.fst hnc)
      rcases hcases e he with h1 | h1 | h1
      · exact hfr nc (List.mem_cons_of_mem _ hnc) e h1 hp
      · rw [h1, show root ++ (curRel ++ [name]) = (root ++ curRel) ++ name :: [] by simp] at hp
        exact hne (prefix_head_eq hp)
      · obtain ⟨nm, r, hpe⟩ := h1
        rw [hpe, show root ++ ((curRel ++ [name]) ++ nm :: r)
            = (root ++ curRel) ++ name :: (nm :: r) by simp] at hp
        exact hne (prefix_head_eq hp)
    simp only [scanChildren, hdupf, hhid, hsymf, Bool.false_and, Bool.false_eq_true,
      if_false, Bool.not_false, Bool.true_or, Bool.and_true] at ih1 ⊢
    simp only [hdupf, hhid, hsymf, Bool.false_and, Bool.false_eq_true, if_false,
      Bool.not_false, Bool.true_or, Bool.and_true] at ih2
    by_cases hdir : isDirNodeFS child = true
    · rw [if_pos hdir] at ih1 ⊢
      rw [ih1 hplr hdkr ?frest, ih2 hplc ?fchild]
      case fchild =>
        intro cs2 hcseq nc _ e he hp
        rcases List.mem_append.mp he with he1 | he1
        · refine hfr (name, child) (by simp) e he1 (List.IsPrefix.trans ⟨[nc.1], ?_⟩ hp)
          simp
        · rw [List.mem_singleton.mp he1] at hp
          have hlen : (root ++ (curRel ++ [name]) ++ [nc.1]).length
              ≤ (root ++ (curRel ++ [name])).length := hp.length_le
          simp at hlen
      case frest =>
        refine hfreshrest _ ?_
        intro e he
        rcases (scanDescend_spec false incl root (curRel ++ [name]) _ _).2 e he with h1 | h1
        · rcases List.mem_append.mp h1 with h2 | h2
          · exact Or.inl h2
          · refine Or.inr (Or.inl ?_)
            rw [List.mem_singleton.mp h2]
        · obtain ⟨⟨nm, r, hrel⟩, hpath, _, _⟩ := h1
          refine Or.inr (Or.inr ⟨nm, r, ?_⟩)
          rw [hpath, hrel]
      · simp only [List.length_append, List.length_cons, List.length_nil, countChildren]
        omega
    · rw [if_neg hdir] at ih1 ⊢
      rw [ih1 hplr hdkr ?frest2]
      case frest2 =>
        refine hfreshrest _ ?_
        intro e he
        rcases List.mem_append.mp he with h2 | h2
        · exact Or.inl h2
        · refine Or.inr (Or.inl ?_)
          rw [List.mem_singleton.mp h2]
      · have hcnt : countNode child = 0 := by
          cases child with
          | file => rfl
          | dir cs2 => exact absurd rfl hdir
          | symlink t => simp [plainNode] at hplc
        simp only [List.length_append, List.length_cons, List.length_nil, countChildren, hcnt]
        omega

/-- On a plain subtree the `include_hidden` flag is irrelevant: no
hidden name is ever encountered. -/
theorem scanChildren_incl (root : List String) :
    ∀ (curRel : List String) (cs : List (String × FSNode)) (items : List Entry),
    plainChildren cs = true →
      scanChildren false true root curRel cs items
        = scanChildren false false root curRel cs items := by
  refine scanChildren.induct false true root
    (fun curRel cs items => plainChildren cs = true →
      scanChildren false true root curRel cs items
        = scanChildren false false root curRel cs items)
    (fun rel n items => plainNode n = true →
      scanDescend false true root rel n items = scanDescend false false root rel n items)
    ?_ ?_ ?_ ?_ ?_ ?_
  · intro rel cs items ih hpl
    simp only [scanDescend]
    have h1 : distinctKeys (cs.map Prod.fst) = true ∧ plainChildren cs = true := by
      simpa [plainNode, Bool.and_eq_true] using hpl
    exact ih h1.2
  · intro rel t items _ hpl
    simp [plainNode] at hpl
  · intro rel items hpl
    simp [plainNode] at hpl
  · intro rel items _
    simp [scanDescend]
  · intro curRel items _
    simp [scanChildren]
  · intro curRel name child rest items path items1 ih2 ih1 hpl
    unfold_let items1 path at ih1
    simp only [] at ih1 ih2
    have hplh : (!is_hidden name && plainNode child && plainChildren rest) = true := hpl
    simp only [Bool.and_eq_true, Bool.not_eq_true'] at hplh
    obtain ⟨⟨hhid, hplc⟩, hplr⟩ := hplh
    have hsymf : isSymNode child = false := by
      cases child with
      | file => rfl
      | dir cs2 => rfl
      | symlink t => simp [plainNode] at hplc
    simp only [scanChildren, hhid, hsymf, Bool.false_and, Bool.and_false, Bool.not_true,
      Bool.false_eq_true, if_false, Bool.not_false, Bool.true_or, Bool.and_true] at ih1 ⊢
    simp only [hhid, hsymf, Bool.false_and, Bool.and_false, Bool.not_true,
      Bool.false_eq_true, if_false, Bool.not_false, Bool.true_or, Bool.and_true] at ih2
    by_cases hdup : ((items.map (fun e => e.path)).contains (root ++ curRel ++ [name])) = true
    · rw [if_pos hdup] at ih1
      rw [if_pos hdup, if_pos hdup]
      exact ih1 hplr
    · rw [if_neg hdup] at ih1
      rw [if_neg hdup, if_neg hdup]
      by_cases hdir : isDirNodeFS child = true
      · rw [if_pos hdir] at ih1
        rw [if_pos hdir, if_pos hdir]
        rw [ih2 hplc] at ih1 ⊢
        exact ih1 hplr
      · rw [if_neg hdir] at ih1
        rw [if_neg hdir, if_neg hdir]
        exact ih1 hplr

/-- C6: scanning a directory holding N plain (non-hidden,
non-symlinked) entries with `include_hidden` false returns exactly
N + 1 entries (the synthesized root entry included), and scanning the
same directory with `include_hidden` true returns a superset. -/
theorem claim_C6 (root_path : List String) (cs : List (String × FSNode))
    (h : plainNode (.dir cs) = true) :
    ∃ es, scan_directory root_path (some (.dir cs)) false false = .ok es ∧
      es.length = countNode (.dir cs) + 1 ∧
      ∀ es2, scan_directory root_path (some (.dir cs)) false true = .ok es2 →
        ∀ e ∈ es, e ∈ es2 := by
  have h1 : distinctKeys (cs.map Prod.fst) = true ∧ plainChildren cs = true := by
    simpa [plainNode, Bool.and_eq_true] using h
  refine ⟨_, rfl, ?_, ?_⟩
  · show (scanDescend false false root_path [] (.dir cs)
      [⟨root_path, [], some true, isSymNode (.dir cs),
        is_hidden (pyName root_path), none⟩]).length = countNode (.dir cs) + 1
    simp only [scanDescend]
    rw [scanChildren_count false root_path [] cs _ h1.2 h1.1 ?fresh]
    case fresh =>
      intro nc _ e he hp
      rw [List.mem_singleton.mp he] at hp
      have hlen := hp.length_le
      simp at hlen
    simp [countNode]
    omega
  · intro es2 hes2 e he
    have heq : scan_directory root_path (some (.dir cs)) false true =
        .ok (scanDescend false true root_path [] (.dir cs)
          [⟨root_path, [], some true, isSymNode (.dir cs),
            is_hidden (pyName root_path), none⟩]) := rfl
    rw [heq, Except.ok.injEq] at hes2
    have hsame : scanDescend false true root_path [] (FSNode.dir cs)
        [⟨root_path, [], some true, isSymNode (.dir cs), is_hidden (pyName root_path), none⟩]
        = scanDescend false false root_path [] (FSNode.dir cs)
        [⟨root_path, [], some true, isSymNode (.dir cs), is_hidden (pyName root_path), none⟩] := by
      simp only [scanDescend]
      exact scanChildren_incl root_path [] cs _ h1.2
    rw [← hes2, hsame]
    exact he

/-- Witness for C6 at a concrete two-level plain directory. -/
theorem claim_C6_witness :
    ∃ es, scan_directory ["r"]
        (some (.dir [("a", .file), ("d", .dir [("b", .file)])])) false false = .ok es ∧
      es.length = countNode (.dir [("a", .file), ("d", .dir [("b", .file)])]) + 1 ∧
      ∀ es2, scan_directory ["r"]
          (some (.dir [("a", .file), ("d", .dir [("b", .file)])])) false true = .ok es2 →
        ∀ e ∈ es, e ∈ es2 :=
  claim_C6 ["r"] [("a", .file), ("d", .dir [("b", .file)])] (by decide)

/-- `dictGet` after `dictSet` at the same key. -/
theorem dictGet_dictSet_self (t : List (String × PyNode)) (k : String) (v : PyNode) :
    dictGet (dictSet t k v) k = some v := by
  induction t with
  | nil => simp [dictSet, dictGet]
  | cons kv rest ih =>
    obtain ⟨k2, v2⟩ := kv
    by_cases h : k2 = k
    · simp [dictSet, dictGet, h]
    · simp [dictSet, dictGet, h, ih]

/-- `dictGet` after `dictSet` at a different key. -/
theorem dictGet_dictSet_ne (t : List (String × PyNode)) (k k2 : String) (v : PyNode)
    (h : k2 ≠ k) : dictGet (dictSet t k v) k2 = dictGet t k2 := by
  induction t with
  | nil => simp [dictSet, dictGet, Ne.symm h]
  | cons kv rest ih =>
    obtain ⟨k3, v3⟩ := kv
    by_cases h3 : k3 = k
    · subst h3
      simp [dictSet, dictGet, Ne.symm h]
    · by_cases h4 : k3 = k2 <;> simp [dictSet, dictGet, h3, h4, h, ih]

theorem dictGetPath_nil (p : List String) : dictGetPath [] p = none := by
  cases p with
  | nil => rfl
  | cons a q =>
    cases q with
    | nil => rfl
    | cons b r => rfl

theorem dictGetPath_nil_path (t : List (String × PyNode)) : dictGetPath t [] = none := rfl

/-- After inserting a part list, the node at that part list is exactly
the leaf marker chosen by `is_dir` (L1). -/
theorem dictGetPath_insertParts_self (parts : List String) :
    ∀ (t : List (String × PyNode)) (d : Bool), parts ≠ [] →
    dictGetPath (insertParts t parts d) parts
      = some (if d then PyNode.dirLeaf else PyNode.fileLeaf) := by
  induction parts with
  | nil => intro t d h; exact absurd rfl h
  | cons p q ih =>
    intro t d _
    cases q with
    | nil =>
      simp only [insertParts, dictGetPath]
      exact dictGet_dictSet_self t p _
    | cons p2 q2 =>
      simp only [insertParts, dictGetPath]
      rw [dictGet_dictSet_self]
      exact ih _ d (by simp)

/-- Inserting a part list preserves the existence of every node that
the inserted list does not properly dominate (L2). -/
theorem dictGetPath_insertParts_preserve :
    ∀ (q : List String) (t : List (String × PyNode)) (p : List String) (v : PyNode) (d : Bool),
    dictGetPath t p = some v → ¬(q <+: p ∧ q ≠ p) →
    ∃ v2, dictGetPath (insertParts t q d) p = some v2 := by
  intro q
  induction q with
  | nil =>
    intro t p v d hv _
    exact ⟨v, by simpa [insertParts] using hv⟩
  | cons a q2 ih =>
    intro t p v d hv hnp
    cases p with
    | nil => rw [dictGetPath_nil_path] at hv; exact Option.noConfusion hv
    | cons b p2 =>
      cases q2 with
      | nil =>
        by_cases hab : a = b
        · subst hab
          have hp2 : p2 = [] := by
            by_contra hne
            apply hnp
            refine ⟨⟨p2, rfl⟩, ?_⟩
            intro hh
            injection hh with h1 h2
            exact hne h2.symm
          subst hp2
          simp only [insertParts, dictGetPath]
          exact ⟨_, dictGet_dictSet_self t a _⟩
        · cases p2 with
          | nil =>
            refine ⟨v, ?_⟩
            simp only [dictGetPath] at hv
            simp only [insertParts, dictGetPath]
            rw [dictGet_dictSet_ne t a b _ (Ne.symm hab)]
            exact hv
          | cons c p3 =>
            refine ⟨v, ?_⟩
            simp only [insertParts, dictGetPath] at hv ⊢
            rw [dictGet_dictSet_ne t a b _ (Ne.symm hab)]
            exact hv
      | cons a2 q3 =>
        by_cases hab : a = b
        · subst hab
          cases p2 with
          | nil =>
            simp only [insertParts, dictGetPath]
            exact ⟨_, dictGet_dictSet_self t a _⟩
          | cons c p3 =>
            simp only [dictGetPath] at hv
            cases hget : dictGet t a with
            | none => rw [hget] at hv; exact Option.noConfusion hv
            | some w =>
              rw [hget] at hv
              cases w with
              | fileLeaf => exact Option.noConfusion hv
              | dirLeaf => exact Option.noConfusion hv
              | dict es =>
                have hv2 : dictGetPath es (c :: p3) = some v := hv
                have hnp2 : ¬(a2 :: q3 <+: c :: p3 ∧ a2 :: q3 ≠ c :: p3) := by
                  rintro ⟨hpre, hne⟩
                  apply hnp
                  obtain ⟨zs, hzs⟩ := hpre
                  refine ⟨⟨zs, ?_⟩, ?_⟩
                  · simp only [List.cons_append] at hzs ⊢
                    rw [hzs]
                  · intro hh
                    injection hh with h1 h2
                    exact hne h2
                obtain ⟨v2, hv2p⟩ := ih es (c :: p3) v d hv2 hnp2
                refine ⟨v2, ?_⟩
                simp only [insertParts, hget, dictGetPath]
                rw [dictGet_dictSet_self]
                exact hv2p
        · cases p2 with
          | nil =>
            refine ⟨v, ?_⟩
            simp only [dictGetPath] at hv
            simp only [insertParts, dictGetPath]
            rw [dictGet_dictSet_ne t a b _ (Ne.symm hab)]
            exact hv
          | cons c p3 =>
            refine ⟨v, ?_⟩
            simp only [insertParts, dictGetPath] at hv ⊢
            rw [dictGet_dictSet_ne t a b _ (Ne.symm hab)]
            exact hv

/-- `validParts` means the part filter of `generate_file_map` keeps
every component. -/
theorem filter_parts_of_validParts (ps : List String) (h : validParts ps = true) :
    ps.filter (fun p => !(p = "" || p = ".")) = ps := by
  rw [List.filter_eq_self]
  intro a ha
  have h2 : validPart a = true := by
    simp only [validParts, List.all_eq_true] at h
    exact h a ha
  simp only [validPart, Bool.and_eq_true, Bool.not_eq_true', decide_eq_false_iff_not] at h2
  simp only [Bool.not_eq_true', Bool.or_eq_false_iff, decide_eq_false_iff_not]
  exact ⟨h2.1.1, h2.1.2⟩

/-- On an item with valid parts, `buildStep` is the root test followed
by a plain `insertParts`. -/
theorem buildStep_valid (t : List (String × PyNode)) (z : Item)
    (h : validParts z.rel_path = true) :
    buildStep t z = if z.rel_path = [] then t
      else insertParts t z.rel_path z.is_dir := by
  by_cases hz : z.rel_path = []
  · simp [buildStep, hz]
  · simp only [buildStep, filter_parts_of_validParts _ h, if_neg hz]

/-- The item loop splits over list concatenation. -/
theorem buildTree_append (A B : List Item) (t : List (String × PyNode)) :
    buildTree (A ++ B) t = buildTree B (buildTree A t) := by
  induction A generalizing t with
  | nil => rfl
  | cons z A ih =>
    simp only [List.cons_append, buildTree]
    exact ih _

/-- Inserting a strict extension of `pre` leaves a dict node at `pre`
(L6): every non-final component of the inserted path becomes a dict. -/
theorem dictGetPath_insertParts_extend :
    ∀ (pre : List String) (t : List (String × PyNode)) (rest : List String) (d : Bool),
    pre ≠ [] → rest ≠ [] →
    ∃ es, dictGetPath (insertParts t (pre ++ rest) d) pre = some (PyNode.dict es) := by
  intro pre
  induction pre with
  | nil => intro t rest d h _; exact absurd rfl h
  | cons a pr ih =>
    intro t rest d _ hrest
    cases pr with
    | nil =>
      cases rest with
      | nil => exact absurd rfl hrest
      | cons r0 rs =>
        simp only [List.cons_append, List.nil_append, insertParts, dictGetPath,
          dictGet_dictSet_self]
        exact ⟨_, rfl⟩
    | cons a2 pr2 =>
      cases rest with
      | nil => exact absurd rfl hrest
      | cons r0 rs =>
        simp only [List.cons_append, insertParts, dictGetPath, dictGet_dictSet_self]
        exact ih _ (r0 :: rs) d (by simp) (by simp)

/-- Inserting a path that is not a prefix of `P` keeps a dict node at
`P` a dict (L4): only a write at `P` itself or at a strict ancestor of
`P` can destroy it. -/
theorem dictGetPath_insertParts_dict_preserve :
    ∀ (q : List String) (t : List (String × PyNode)) (P : List String)
      (es : List (String × PyNode)) (d : Bool),
    dictGetPath t P = some (PyNode.dict es) → ¬(q <+: P) →
    ∃ es2, dictGetPath (insertParts t q d) P = some (PyNode.dict es2) := by
  intro q
  induction q with
  | nil => intro t P es d hv hq; exact absurd List.nil_prefix hq
  | cons a q2 ih =>
    intro t P es d hv hq
    cases P with
    | nil => rw [dictGetPath_nil_path] at hv; exact Option.noConfusion hv
    | cons b P2 =>
      by_cases hab : a = b
      · subst hab
        cases q2 with
        | nil => exact absurd ⟨P2, rfl⟩ hq
        | cons a2 q3 =>
          cases P2 with
          | nil =>
            simp only [insertParts, dictGetPath, dictGet_dictSet_self]
            exact ⟨_, rfl⟩
          | cons c P3 =>
            simp only [dictGetPath] at hv
            cases hget : dictGet t a with
            | none => rw [hget] at hv; exact Option.noConfusion hv
            | some w =>
              rw [hget] at hv
              cases w with
              | fileLeaf => exact Option.noConfusion hv
              | dirLeaf => exact Option.noConfusion hv
              | dict es0 =>
                have hv2 : dictGetPath es0 (c :: P3) = some (PyNode.dict es) := hv
                have hq2 : ¬(a2 :: q3 <+: c :: P3) := by
                  intro hpre
                  obtain ⟨zs, hzs⟩ := hpre
                  apply hq
                  refine ⟨zs, ?_⟩
                  simp only [List.cons_append] at hzs ⊢
                  rw [hzs]
                obtain ⟨es2, hes2⟩ := ih es0 (c :: P3) es d hv2 hq2
                refine ⟨es2, ?_⟩
                simp only [insertParts, hget, dictGetPath, dictGet_dictSet_self]
                exact hes2
      · cases q2 with
        | nil =>
          refine ⟨es, ?_⟩
          cases P2 with
          | nil =>
            simp only [dictGetPath] at hv
            simp only [insertParts, dictGetPath]
            rw [dictGet_dictSet_ne t a b _ (Ne.symm hab)]
            exact hv
          | cons c P3 =>
            simp only [insertParts, dictGetPath] at hv ⊢
            rw [dictGet_dictSet_ne t a b _ (Ne.symm hab)]
            exact hv
        | cons a2 q3 =>
          refine ⟨es, ?_⟩
          cases P2 with
          | nil =>
            simp only [dictGetPath] at hv
            simp only [insertParts, dictGetPath]
            rw [dictGet_dictSet_ne t a b _ (Ne.symm hab)]
            exact hv
          | cons c P3 =>
            simp only [insertParts, dictGetPath] at hv ⊢
            rw [dictGet_dictSet_ne t a b _ (Ne.symm hab)]
            exact hv

/-- A dict node found after an insertion either lies strictly above
the inserted path or was already a dict before the insertion (L3). -/
theorem dictGetPath_insertParts_dict_source :
    ∀ (q : List String) (t : List (String × PyNode)) (P : List String)
      (es : List (String × PyNode)) (d : Bool),
    dictGetPath (insertParts t q d) P = some (PyNode.dict es) →
    (P <+: q ∧ P ≠ q) ∨ ∃ es0, dictGetPath t P = some (PyNode.dict es0) := by
  intro q
  induction q with
  | nil => intro t P es d hv; exact Or.inr ⟨es, hv⟩
  | cons a q2 ih =>
    intro t P es d hv
    cases P with
    | nil => rw [dictGetPath_nil_path] at hv; exact Option.noConfusion hv
    | cons b P2 =>
      by_cases hab : a = b
      · subst hab
        cases q2 with
        | nil =>
          cases P2 with
          | nil =>
            simp only [insertParts, dictGetPath, dictGet_dictSet_self] at hv
            cases d <;> simp at hv
          | cons c P3 =>
            simp only [insertParts, dictGetPath, dictGet_dictSet_self] at hv
            cases d <;> simp at hv
        | cons a2 q3 =>
          cases P2 with
          | nil => exact Or.inl ⟨⟨a2 :: q3, rfl⟩, by simp⟩
          | cons c P3 =>
            simp only [insertParts, dictGetPath, dictGet_dictSet_self] at hv
            rcases ih _ (c :: P3) es d hv with ⟨hpre, hne⟩ | ⟨es0, h0⟩
            · refine Or.inl ⟨?_, ?_⟩
              · obtain ⟨zs, hzs⟩ := hpre
                refine ⟨zs, ?_⟩
                simp only [List.cons_append] at hzs ⊢
                rw [hzs]
              · intro hh
                injection hh with h1 h2
                exact hne h2
            · cases hget : dictGet t a with
              | none =>
                rw [hget] at h0
                have h1 : dictGetPath [] (c :: P3) = some (PyNode.dict es0) := h0
                rw [dictGetPath_nil] at h1
                exact Option.noConfusion h1
              | some w =>
                rw [hget] at h0
                cases w with
                | fileLeaf =>
                  have h1 : dictGetPath [] (c :: P3) = some (PyNode.dict es0) := h0
                  rw [dictGetPath_nil] at h1
                  exact Option.noConfusion h1
                | dirLeaf =>
                  have h1 : dictGetPath [] (c :: P3) = some (PyNode.dict es0) := h0
                  rw [dictGetPath_nil] at h1
                  exact Option.noConfusion h1
                | dict es1 =>
                  have h1 : dictGetPath es1 (c :: P3) = some (PyNode.dict es0) := h0
                  refine Or.inr ⟨es0, ?_⟩
                  simp only [dictGetPath, hget]
                  exact h1
      · refine Or.inr ⟨es, ?_⟩
        cases q2 with
        | nil =>
          cases P2 with
          | nil =>
            simp only [insertParts, dictGetPath] at hv
            rw [dictGet_dictSet_ne t a b _ (Ne.symm hab)] at hv
            simp only [dictGetPath]
            exact hv
          | cons c P3 =>
            simp only [insertParts, dictGetPath] at hv ⊢
            rw [dictGet_dictSet_ne t a b _ (Ne.symm hab)] at hv
            exact hv
        | cons a2 q3 =>
          cases P2 with
          | nil =>
            simp only [insertParts, dictGetPath] at hv
            rw [dictGet_dictSet_ne t a b _ (Ne.symm hab)] at hv
            simp only [dictGetPath]
            exact hv
          | cons c P3 =>
            simp only [insertParts, dictGetPath] at hv ⊢
            rw [dictGet_dictSet_ne t a b _ (Ne.symm hab)] at hv
            exact hv

/-- Running the item loop over items none of which writes at `P` or
at a strict ancestor of `P` keeps a node present at `P`. -/
theorem buildTree_preserve :
    ∀ (B : List Item) (t : List (String × PyNode)) (P : List String) (v : PyNode),
    dictGetPath t P = some v →
    (∀ z ∈ B, validParts z.rel_path = true) →
    (∀ z ∈ B, z.rel_path ≠ [] → ¬(z.rel_path <+: P ∧ z.rel_path ≠ P)) →
    ∃ v2, dictGetPath (buildTree B t) P = some v2 := by
  intro B
  induction B with
  | nil => intro t P v hv _ _; exact ⟨v, hv⟩
  | cons z B ih =>
    intro t P v hv hval hpre
    simp only [buildTree]
    rw [buildStep_valid t z (hval z (List.mem_cons_self z B))]
    by_cases hz : z.rel_path = []
    · rw [if_pos hz]
      exact ih t P v hv (fun w hw => hval w (List.mem_cons_of_mem _ hw))
        (fun w hw => hpre w (List.mem_cons_of_mem _ hw))
    · rw [if_neg hz]
      obtain ⟨v2, hv2⟩ := dictGetPath_insertParts_preserve z.rel_path t P v z.is_dir hv
        (hpre z (List.mem_cons_self z B) hz)
      exact ih _ P v2 hv2 (fun w hw => hval w (List.mem_cons_of_mem _ hw))
        (fun w hw => hpre w (List.mem_cons_of_mem _ hw))

/-- Running the item loop over items none of which writes at `P` or at
an ancestor of `P` (including `P` itself) keeps a dict node at `P`. -/
theorem buildTree_dict_preserve :
    ∀ (B : List Item) (t : List (String × PyNode)) (P : List String)
      (es : List (String × PyNode)),
    dictGetPath t P = some (PyNode.dict es) →
    (∀ z ∈ B, validParts z.rel_path = true) →
    (∀ z ∈ B, z.rel_path ≠ [] → ¬(z.rel_path <+: P)) →
    ∃ es2, dictGetPath (buildTree B t) P = some (PyNode.dict es2) := by
  intro B
  induction B with
  | nil => intro t P es hv _ _; exact ⟨es, hv⟩
  | cons z B ih =>
    intro t P es hv hval hpre
    simp only [buildTree]
    rw [buildStep_valid t z (hval z (List.mem_cons_self z B))]
    by_cases hz : z.rel_path = []
    · rw [if_pos hz]
      exact ih t P es hv (fun w hw => hval w (List.mem_cons_of_mem _ hw))
        (fun w hw => hpre w (List.mem_cons_of_mem _ hw))
    · rw [if_neg hz]
      obtain ⟨es2, hv2⟩ := dictGetPath_insertParts_dict_preserve z.rel_path t P es z.is_dir hv
        (hpre z (List.mem_cons_self z B) hz)
      exact ih _ P es2 hv2 (fun w hw => hval w (List.mem_cons_of_mem _ hw))
        (fun w hw => hpre w (List.mem_cons_of_mem _ hw))

/-- A dict node of the built tree comes from some processed item whose
part list strictly extends the node path (or was already in the start
tree). -/
theorem buildTree_dict_source :
    ∀ (A : List Item) (t : List (String × PyNode)) (P : List String)
      (es : List (String × PyNode)),
    (∀ z ∈ A, validParts z.rel_path = true) →
    dictGetPath (buildTree A t) P = some (PyNode.dict es) →
    (∃ z ∈ A, ∃ m, m ≠ [] ∧ z.rel_path = P ++ m) ∨
      ∃ es0, dictGetPath t P = some (PyNode.dict es0) := by
  intro A
  induction A with
  | nil => intro t P es _ hv; exact Or.inr ⟨es, hv⟩
  | cons z A ih =>
    intro t P es hval hv
    simp only [buildTree] at hv
    rw [buildStep_valid t z (hval z (List.mem_cons_self z A))] at hv
    by_cases hz : z.rel_path = []
    · rw [if_pos hz] at hv
      rcases ih t P es (fun w hw => hval w (List.mem_cons_of_mem _ hw)) hv with h | h
      · obtain ⟨w, hw, hm⟩ := h
        exact Or.inl ⟨w, List.mem_cons_of_mem _ hw, hm⟩
      · exact Or.inr h
    · rw [if_neg hz] at hv
      rcases ih _ P es (fun w hw => hval w (List.mem_cons_of_mem _ hw)) hv with h | h
      · obtain ⟨w, hw, hm⟩ := h
        exact Or.inl ⟨w, List.mem_cons_of_mem _ hw, hm⟩
      · obtain ⟨es0, h0⟩ := h
        rcases dictGetPath_insertParts_dict_source z.rel_path t P es0 z.is_dir h0 with
          ⟨hpre, hne⟩ | h1
        · obtain ⟨m, hm⟩ := hpre
          refine Or.inl ⟨z, List.mem_cons_self z A, m, ?_, hm.symm⟩
          intro hm0
          subst hm0
          exact hne (by simpa using hm)
        · obtain ⟨es1, h1⟩ := h1
          exact Or.inr ⟨es1, h1⟩

/-- A successful `dictGet` is a membership. -/
theorem dictGet_mem : ∀ (es : List (String × PyNode)) (k : String) (v : PyNode),
    dictGet es k = some v → (k, v) ∈ es := by
  intro es
  induction es with
  | nil => intro k v h; exact Option.noConfusion h
  | cons kv rest ih =>
    intro k v h
    obtain ⟨k2, v2⟩ := kv
    by_cases hk : k2 = k
    · simp only [dictGet, if_pos hk] at h
      injection h with h2
      exact List.mem_cons.mpr (Or.inl (by rw [Prod.mk.injEq]; exact ⟨hk.symm, h2.symm⟩))
    · simp only [dictGet, if_neg hk] at h
      exact List.mem_cons_of_mem _ (ih k v h)

/-- The recursive sorting pass keeps every entry, with its value
sorted. -/
theorem sortEntries_mem : ∀ (es : List (String × PyNode)) (k : String) (v : PyNode),
    (k, v) ∈ es → (k, sortNode v) ∈ sortEntries es := by
  intro es
  induction es with
  | nil => intro k v h; exact absurd h (List.not_mem_nil _)
  | cons kv rest ih =>
    intro k v h
    obtain ⟨k2, v2⟩ := kv
    rcases List.mem_cons.mp h with h1 | h1
    · injection h1 with ha hb
      subst ha
      subst hb
      simp only [sortEntries]
      exact List.mem_cons_self _ _
    · simp only [sortEntries]
      exact List.mem_cons_of_mem _ (ih k v h1)

/-- Sorting a node does not change whether the renderer treats it as a
directory. -/
theorem isDirNode_sortNode (v : PyNode) : isDirNode (sortNode v) = isDirNode v := by
  cases v <;> rfl

/-- Every entry of a level produces its own line in the rendered
output of that level. -/
theorem renderEntries_mem_line :
    ∀ (es : List (String × PyNode)) (pfx k : String) (v : PyNode), (k, v) ∈ es →
    ∃ conn, (conn = "└── " ∨ conn = "├── ") ∧
      (pfx ++ conn ++ k ++ (if isDirNode v then "/" else "")) ∈ renderEntries pfx es := by
  intro es
  induction es with
  | nil => intro pfx k v h; exact absurd h (List.not_mem_nil _)
  | cons kv rest ih =>
    intro pfx k v h
    obtain ⟨k2, v2⟩ := kv
    rcases List.mem_cons.mp h with h1 | h1
    · injection h1 with ha hb
      subst ha
      subst hb
      cases rest with
      | nil => exact ⟨"└── ", Or.inl rfl, List.mem_cons_self _ _⟩
      | cons kv2 rest2 => exact ⟨"├── ", Or.inr rfl, List.mem_cons_self _ _⟩
    · obtain ⟨conn, hc, hline⟩ := ih pfx k v h1
      exact ⟨conn, hc, List.mem_cons_of_mem _ (List.mem_append_right _ hline)⟩

/-- The rendered block of an entry value of a level is contained, for
some child prefix, in the rendered output of the level. -/
theorem renderEntries_mem_child :
    ∀ (es : List (String × PyNode)) (pfx k : String) (v : PyNode), (k, v) ∈ es →
    ∃ pfx2, ∀ l ∈ renderChild pfx2 v, l ∈ renderEntries pfx es := by
  intro es
  induction es with
  | nil => intro pfx k v h; exact absurd h (List.not_mem_nil _)
  | cons kv rest ih =>
    intro pfx k v h
    obtain ⟨k2, v2⟩ := kv
    rcases List.mem_cons.mp h with h1 | h1
    · injection h1 with ha hb
      subst ha
      subst hb
      refine ⟨pfx ++ (if rest.isEmpty then "    " else "│   "), fun l hl => ?_⟩
      exact List.mem_cons_of_mem _ (List.mem_append_left _ hl)
    · obtain ⟨pfx2, hp⟩ := ih pfx k v h1
      refine ⟨pfx2, fun l hl => ?_⟩
      exact List.mem_cons_of_mem _ (List.mem_append_right _ (hp l hl))

/-- Main rendering lemma: every node of the (unsorted) tree yields a
line of the rendered sorted tree carrying its last path component and
its directory suffix. -/
theorem renderEntries_of_dictGetPath :
    ∀ (P : List String) (es : List (String × PyNode)) (v : PyNode) (pfx : String),
    P ≠ [] → dictGetPath es P = some v →
    ∃ pfx2 conn, (conn = "└── " ∨ conn = "├── ") ∧
      (pfx2 ++ conn ++ P.getLastD "" ++ (if isDirNode v then "/" else "")) ∈
        renderEntries pfx (List.insertionSort entryLe (sortEntries es)) := by
  intro P
  induction P with
  | nil => intro es v pfx h; exact absurd rfl h
  | cons p q ih =>
    intro es v pfx _ hv
    cases q with
    | nil =>
      simp only [dictGetPath] at hv
      have hmem : (p, sortNode v) ∈ List.insertionSort entryLe (sortEntries es) :=
        (List.mem_insertionSort entryLe).mpr (sortEntries_mem es p v (dictGet_mem es p v hv))
      obtain ⟨conn, hc, hline⟩ := renderEntries_mem_line _ pfx p (sortNode v) hmem
      rw [isDirNode_sortNode] at hline
      exact ⟨pfx, conn, hc, hline⟩
    | cons p2 q2 =>
      simp only [dictGetPath] at hv
      cases hget : dictGet es p with
      | none => rw [hget] at hv; exact Option.noConfusion hv
      | some w =>
        rw [hget] at hv
        cases w with
        | fileLeaf => exact Option.noConfusion hv
        | dirLeaf => exact Option.noConfusion hv
        | dict es2 =>
          have hv2 : dictGetPath es2 (p2 :: q2) = some v := hv
          have hmem : (p, sortNode (PyNode.dict es2)) ∈
              List.insertionSort entryLe (sortEntries es) :=
            (List.mem_insertionSort entryLe).mpr
              (sortEntries_mem es p _ (dictGet_mem es p _ hget))
          obtain ⟨pfxC, hsub⟩ := renderEntries_mem_child _ pfx p _ hmem
          obtain ⟨pfx2, conn, hc, hline⟩ := ih es2 v pfxC (by simp) hv2
          refine ⟨pfx2, conn, hc, ?_⟩
          have hgl : (p :: p2 :: q2).getLastD "" = (p2 :: q2).getLastD "" := by
            rw [List.getLastD_eq_getLast?, List.getLastD_eq_getLast?,
              List.getLast?_cons_cons]
          rw [hgl]
          apply hsub
          simp only [sortNode, renderChild]
          exact hline
/-- Lifting a node of the built tree to a line of the final map: the
tree is nonempty, so the placeholder branch is not taken and the
rendered tree block sits between the root line and the closing
marker. -/
theorem generateFileMapLines_of_node (items : List Item) (root_path : List String)
    (P : List String) (v : PyNode) (hP : P ≠ [])
    (hv : dictGetPath (buildTree (sortedItems items) []) P = some v) :
    ∃ pfx conn, (conn = "└── " ∨ conn = "├── ") ∧
      (pfx ++ conn ++ P.getLastD "" ++ (if isDirNode v then "/" else "")) ∈
        generateFileMapLines items root_path := by
  have hne : (buildTree (sortedItems items) []).isEmpty = false := by
    cases h0 : buildTree (sortedItems items) [] with
    | nil => rw [h0, dictGetPath_nil] at hv; exact Option.noConfusion hv
    | cons a l => rfl
  obtain ⟨pfx2, conn, hc, hline⟩ :=
    renderEntries_of_dictGetPath P (buildTree (sortedItems items) []) v "" hP hv
  refine ⟨pfx2, conn, hc, ?_⟩
  simp only [generateFileMapLines, hne, Bool.false_eq_true, if_false]
  exact List.mem_cons_of_mem _ (List.mem_cons_of_mem _ (List.mem_append_left _ hline))

/-- An item that the sort places after `z`, `z` nonroot, never has its
part list as a strict initial segment of the later item's part list
(keys are compared as whole `pyStr` strings). -/
theorem not_proper_prefix_of_itemLe (y z : Item)
    (hle : itemLe y z) (hz0 : z.rel_path ≠ []) :
    ¬(z.rel_path <+: y.rel_path ∧ z.rel_path ≠ y.rel_path) := by
  rintro ⟨⟨m2, hm2⟩, hne⟩
  have hm2ne : m2 ≠ [] := by
    intro hh
    subst hh
    exact hne (by simpa using hm2)
  have hfalse := strLe_pyStr_proper_prefix z.rel_path m2 hz0 hm2ne
  rw [hm2] at hfalse
  have hle2 : strLe (pyStr y.rel_path) (pyStr z.rel_path) = true := hle
  rw [hle2] at hfalse
  exact Bool.noConfusion hfalse

/-- If the sort places `z` after `y` and `y`'s part list strictly
extends `P`, then `z`'s part list is not an initial segment of `P`. -/
theorem not_prefix_of_itemLe_extend (y z : Item) (P m : List String)
    (hle : itemLe y z) (hyP : y.rel_path = P ++ m)
    (hz0 : z.rel_path ≠ []) (hm : m ≠ []) : ¬(z.rel_path <+: P) := by
  intro hpfx
  apply not_proper_prefix_of_itemLe y z hle hz0
  constructor
  · rw [hyP]
    exact hpfx.trans (List.prefix_append P m)
  · intro hh
    have hlen := hpfx.length_le
    rw [hh, hyP, List.length_append] at hlen
    have hm0 : m.length = 0 := by omega
    exact hm (List.length_eq_zero.mp hm0)

/-- C3: during `generate_file_map` tree construction, when the sorted
item list splits as `A ++ y :: B` with `y`'s part list strictly
extending a prefix `pre` at which the tree built from `A` holds a file
leaf, processing `y` replaces that leaf by a dict (last-writer-wins),
the node at `pre` is still a dict in the fully built tree, and the
final map renders `pre`'s last component as a directory line with a
trailing "/". -/
theorem claim_C3 (items : List Item) (root_path : List String)
    (A B : List Item) (y : Item) (pre rest : List String)
    (hval : ∀ it ∈ items, validParts it.rel_path = true)
    (hsplit : sortedItems items = A ++ y :: B)
    (hy : y.rel_path = pre ++ rest)
    (hpre : pre ≠ []) (hrest : rest ≠ [])
    (hleaf : isSomeFileLeaf (dictGetPath (buildTree A []) pre) = true) :
    (∃ es, dictGetPath (buildTree (A ++ [y]) []) pre = some (PyNode.dict es)) ∧
    (∃ es, dictGetPath (buildTree (sortedItems items) []) pre
      = some (PyNode.dict es)) ∧
    ∃ pfx conn, (conn = "└── " ∨ conn = "├── ") ∧
      (pfx ++ conn ++ pre.getLastD "" ++ "/") ∈ generateFileMapLines items root_path := by
  have hvalS : ∀ z ∈ sortedItems items, validParts z.rel_path = true :=
    fun z hz => hval z ((List.mem_insertionSort itemLe).mp hz)
  have hyv : validParts y.rel_path = true := by
    apply hvalS y
    rw [hsplit]
    exact List.mem_append_right _ (List.mem_cons_self _ _)
  have hynil : y.rel_path ≠ [] := by
    rw [hy]
    intro hh
    exact hpre (List.append_eq_nil.mp hh).1
  have h1 : ∃ es, dictGetPath (buildTree (A ++ [y]) []) pre = some (PyNode.dict es) := by
    rw [buildTree_append]
    simp only [buildTree]
    rw [buildStep_valid _ y hyv, if_neg hynil, hy]
    exact dictGetPath_insertParts_extend pre _ rest y.is_dir hpre hrest
  have hsort : List.Pairwise itemLe (sortedItems items) :=
    List.sorted_insertionSort itemLe items
  rw [hsplit] at hsort
  obtain ⟨hA, hyB, hAB⟩ := List.pairwise_append.mp hsort
  have hyle : ∀ z ∈ B, itemLe y z := (List.pairwise_cons.mp hyB).1
  obtain ⟨es1, hes1⟩ := h1
  have h2 : ∃ es, dictGetPath (buildTree (sortedItems items) []) pre
      = some (PyNode.dict es) := by
    rw [show sortedItems items = (A ++ [y]) ++ B from by rw [hsplit, List.append_cons]]
    rw [buildTree_append]
    apply buildTree_dict_preserve B _ pre es1 hes1
    · intro z hz
      apply hvalS z
      rw [hsplit]
      exact List.mem_append_right _ (List.mem_cons_of_mem _ hz)
    · intro z hz hz0
      exact not_prefix_of_itemLe_extend y z pre rest (hyle z hz) hy hz0 hrest
  obtain ⟨es2, hes2⟩ := h2
  have h3 := generateFileMapLines_of_node items root_path pre (PyNode.dict es2) hpre hes2
  refine ⟨⟨es1, hes1⟩, ⟨es2, hes2⟩, ?_⟩
  obtain ⟨pfx, conn, hc, hline⟩ := h3
  exact ⟨pfx, conn, hc, hline⟩

/-- C10: with the input sorted by the string form of `rel_path`, an
item whose parts strictly extend another item's parts is processed
later, so (a) at the moment an item's unconditional leaf write
happens, the tree built from the preceding items never holds a dict
(which would carry children) at that item's path, and (b) every
non-root item with valid parts ends up as a node of the fully built
tree and as a rendered line of the final map, tagged as a file or a
directory. -/
theorem claim_C10 (items : List Item) (root_path : List String)
    (hval : ∀ it ∈ items, validParts it.rel_path = true) :
    (∀ A y B, sortedItems items = A ++ y :: B → y.rel_path ≠ [] →
      ∀ es, dictGetPath (buildTree A []) y.rel_path ≠ some (PyNode.dict es)) ∧
    (∀ y ∈ items, y.rel_path ≠ [] →
      (∃ v, dictGetPath (buildTree (sortedItems items) []) y.rel_path = some v) ∧
      ∃ pfx conn sfx, (conn = "└── " ∨ conn = "├── ") ∧ (sfx = "" ∨ sfx = "/") ∧
        (pfx ++ conn ++ y.rel_path.getLastD "" ++ sfx) ∈
          generateFileMapLines items root_path) := by
  have hvalS : ∀ z ∈ sortedItems items, validParts z.rel_path = true :=
    fun z hz => hval z ((List.mem_insertionSort itemLe).mp hz)
  have hsort : List.Pairwise itemLe (sortedItems items) :=
    List.sorted_insertionSort itemLe items
  constructor
  · intro A y B hsplit hynil es hdict
    have hvalA : ∀ z ∈ A, validParts z.rel_path = true := by
      intro z hz
      apply hvalS z
      rw [hsplit]
      exact List.mem_append_left _ hz
    rcases buildTree_dict_source A [] y.rel_path es hvalA hdict with h | h
    · obtain ⟨z, hzA, m, hm, hzrel⟩ := h
      have hsort2 := hsort
      rw [hsplit] at hsort2
      obtain ⟨_, _, hAB⟩ := List.pairwise_append.mp hsort2
      have hle : itemLe z y := hAB z hzA y (List.mem_cons_self _ _)
      have hfalse := strLe_pyStr_proper_prefix y.rel_path m hynil hm
      rw [← hzrel] at hfalse
      have hle2 : strLe (pyStr z.rel_path) (pyStr y.rel_path) = true := hle
      rw [hle2] at hfalse
      exact Bool.noConfusion hfalse
    · obtain ⟨es0, h0⟩ := h
      rw [dictGetPath_nil] at h0
      exact Option.noConfusion h0
  · intro y hy hynil
    have hyS : y ∈ sortedItems items := (List.mem_insertionSort itemLe).mpr hy
    obtain ⟨A, B, hsplit⟩ := List.append_of_mem hyS
    have hyv : validParts y.rel_path = true := hval y hy
    have hsort2 := hsort
    rw [hsplit] at hsort2
    obtain ⟨hA, hyB, hAB⟩ := List.pairwise_append.mp hsort2
    have hyle : ∀ z ∈ B, itemLe y z := (List.pairwise_cons.mp hyB).1
    have h1 : ∃ v, dictGetPath (buildTree (A ++ [y]) []) y.rel_path = some v := by
      rw [buildTree_append]
      simp only [buildTree]
      rw [buildStep_valid _ y hyv, if_neg hynil]
      exact ⟨_, dictGetPath_insertParts_self y.rel_path _ y.is_dir hynil⟩
    obtain ⟨v1, hv1⟩ := h1
    have h2 : ∃ v, dictGetPath (buildTree (sortedItems items) []) y.rel_path
        = some v := by
      rw [show sortedItems items = (A ++ [y]) ++ B from by rw [hsplit, List.append_cons]]
      rw [buildTree_append]
      apply buildTree_preserve B _ y.rel_path v1 hv1
      · intro z hz
        apply hvalS z
        rw [hsplit]
        exact List.mem_append_right _ (List.mem_cons_of_mem _ hz)
      · intro z hz hz0
        exact not_proper_prefix_of_itemLe y z (hyle z hz) hz0
    obtain ⟨v2, hv2⟩ := h2
    obtain ⟨pfx, conn, hc, hline⟩ :=
      generateFileMapLines_of_node items root_path y.rel_path v2 hynil hv2
    refine ⟨⟨v2, hv2⟩, pfx, conn, if isDirNode v2 then "/" else "", hc, ?_, hline⟩
    cases isDirNode v2
    · exact Or.inl rfl
    · exact Or.inr rfl

theorem claim_C3_witness :
    (∃ es, dictGetPath (buildTree ([Item.mk ["p", "a"] ["a"] false]
        ++ [Item.mk ["p", "a", "b"] ["a", "b"] false]) []) ["a"]
      = some (PyNode.dict es)) ∧
    (∃ es, dictGetPath (buildTree (sortedItems exItems) []) ["a"]
      = some (PyNode.dict es)) ∧
    ∃ pfx conn, (conn = "└── " ∨ conn = "├── ") ∧
      (pfx ++ conn ++ (["a"] : List String).getLastD "" ++ "/") ∈
        generateFileMapLines exItems ["p"] :=
  claim_C3 exItems ["p"] [Item.mk ["p", "a"] ["a"] false] []
    (Item.mk ["p", "a", "b"] ["a", "b"] false) ["a"] ["b"]
    (by decide) (by decide) (by decide) (by decide) (by decide) (by decide)

theorem claim_C10_witness :
    (∀ A y B, sortedItems exItems = A ++ y :: B → y.rel_path ≠ [] →
      ∀ es, dictGetPath (buildTree A []) y.rel_path ≠ some (PyNode.dict es)) ∧
    (∀ y ∈ exItems, y.rel_path ≠ [] →
      (∃ v, dictGetPath (buildTree (sortedItems exItems) []) y.rel_path = some v) ∧
      ∃ pfx conn sfx, (conn = "└── " ∨ conn = "├── ") ∧ (sfx = "" ∨ sfx = "/") ∧
        (pfx ++ conn ++ y.rel_path.getLastD "" ++ sfx) ∈
          generateFileMapLines exItems ["p"]) :=
  claim_C10 exItems ["p"] (by decide)

end Allprompt
